import Mathlib

/-!
# Worker pool of `lib/pool/pool.go`

A shallow embedding of the `Worker` wrapper and of the `Pool` orchestration
(`NewPool`, `work`, `Run`, `InDone`, `OutDone`, `Stop`, `NewTick`), followed by
the properties stated for them.

## The model

* Go values of type `interface{}` are `Any α = Option α`: `none` is the nil
  interface, `some a` a non-nil dynamic value `a : α`.  What `fmt` and the
  runtime need to know about a dynamic value is collected in the class
  `GoValue`; all definitions and theorems hold for every such `α`.
* A transformation is a function that, on each input, either returns a value
  or panics with a value.  `recover()` yields the value given to `panic`,
  which is the nil interface after `panic(nil)` (the language rule for modules
  declaring a Go version below 1.21).
* The pool is a state machine.  Its state is the struct `Pool` together with
  the place where each goroutine stands: the caller of `Run` (`RunPc`) and the
  goroutines started by `go p.work()` (`WorkPc`).  A step (`Label`) is one
  statement of `Run` or of `work`, the passing of a value through `In` or
  `Out` (the channels are unbuffered, so a send meets a receive), or a call of
  `InDone`, `OutDone` or `Stop` by the program around the pool.  `exec` runs a
  schedule of steps; the states reachable from `NewPool` under all schedules
  are all interleavings of the goroutines.
* `Run` is called once.  An unrecovered panic (a send on a closed channel, a
  close of a closed channel, a negative barrier counter) ends the program.
* `misc.RandomString()` is a string given with the step, so tickets may
  collide.  `slog.Debug` appends a line to `slog` and has no other effect.
  The registry `smap.SMap` is a finite map.
-/

set_option linter.unusedSectionVars false

namespace Kscan

/-! ## Values, panics, `fmt.Sprint` -/

/-- What the runtime and `fmt` know about a non-nil dynamic value:
how `%v` prints it, whether its kind is `string`, and which value the runtime
raises when a nil function value is called. -/
class GoValue (α : Type) where
  /-- The `%v` rendering of the value. -/
  format : α → String
  /-- Whether the reflected kind of the value is `string`. -/
  kindString : α → Bool
  /-- The runtime error raised by calling a nil function value. -/
  nilFuncCall : α

/-- An `interface{}` value: `none` is nil. -/
abbrev Any (α : Type) := Option α

/-- A Go `error`: `none` is nil, `some msg` is `errors.New(msg)`. -/
abbrev GoError := Option String

/-- How a call ends: it returns a value, or it panics with the value given to
`panic` (which may be the nil interface). -/
inductive Outcome (α β : Type) where
  | returned (v : β)
  | panicked (e : Any α)

/-- A transformation `func(interface{}) interface{}`, or nil. -/
abbrev Func (α : Type) := Option (Any α → Outcome α (Any α))

variable {α : Type} [GoValue α]

/-- Calling a function value; calling nil raises the runtime's nil-dereference
error. -/
def callFunc (f : Func α) (x : Any α) : Outcome α (Any α) :=
  match f with
  | none => .panicked (some GoValue.nilFuncCall)
  | some g => g x

/-- An operand of `fmt.Sprint`: a Go string, or an `interface{}` value. -/
inductive Operand (α : Type) where
  | text (s : String)
  | any (v : Any α)

/-- The test `arg != nil && reflect.TypeOf(arg).Kind() == reflect.String`. -/
def Operand.isString : Operand α → Bool
  | .text _ => true
  | .any none => false
  | .any (some a) => GoValue.kindString a

/-- The `%v` rendering of an operand; the nil interface prints as `<nil>`. -/
def Operand.printArg : Operand α → String
  | .text s => s
  | .any none => "<nil>"
  | .any (some a) => GoValue.format a

/-- The loop of `fmt`'s `doPrint`: a space goes between two operands when
neither is a string. -/
def doPrint : List (Operand α) → Nat → Bool → String → String
  | [], _, _, buf => buf
  | arg :: rest, argNum, prevString, buf =>
    let isString := arg.isString
    let buf := if argNum > 0 && !isString && !prevString then buf ++ " " else buf
    doPrint rest (argNum + 1) isString (buf ++ arg.printArg)

/-- The function `fmt.Sprint`. -/
def Sprint (a : List (Operand α)) : String := doPrint a 0 false ""

/-- The function `errors.New`. -/
def errorsNew (text : String) : GoError := some text

/-! ## Worker -/

/-- The frame of the closure built by `NewWorker`: its named results `out` and
`err`, the panic in flight (if any), and the lines handed to `slog.Debug`. -/
structure Frame (α : Type) where
  out : Any α
  err : GoError
  panicking : Option (Any α)
  debug : List (GoError × Any α)

/-- The builtin `recover()` called from a deferred function: it stops the
panic in flight and yields the value given to `panic`; it yields nil when the
goroutine is not panicking, and also when the value given to `panic` was nil. -/
def recover (fr : Frame α) : Any α × Frame α :=
  match fr.panicking with
  | none => (none, fr)
  | some e => (e, { fr with panicking := none })

/-- A finished call of a worker closure: how it ended and what it logged. -/
structure Call (α : Type) where
  result : Outcome α (Any α × GoError)
  debug : List (GoError × Any α)

/-- Leaving the frame: a panic still in flight propagates to the caller,
otherwise the named results are returned. -/
def Frame.leave (fr : Frame α) : Call α :=
  match fr.panicking with
  | none => { result := .returned (fr.out, fr.err), debug := fr.debug }
  | some e => { result := .panicked e, debug := fr.debug }

/-- The struct `Worker`. -/
structure Worker (α : Type) where
  f : Any α → Call α

/-- The function `NewWorker`: the closure runs `out = f(in)` under a deferred
`if e := recover(); e != nil { err = errors.New(fmt.Sprint("param: ", in, e)); slog.Debug(err, e) }`. -/
def NewWorker (f : Func α) : Worker α :=
  { f := fun x =>
      let fr0 : Frame α := { out := none, err := none, panicking := none, debug := [] }
      let fr1 : Frame α :=
        match callFunc f x with
        | .returned v => { fr0 with out := v }
        | .panicked e => { fr0 with panicking := some e }
      let (e, fr2) := recover fr1
      let fr3 : Frame α :=
        if e.isSome then
          let err := errorsNew (Sprint [.text "param: ", .any x, .any e])
          { fr2 with err := err, debug := fr2.debug ++ [(err, e)] }
        else fr2
      fr3.leave }

/-- The method `Worker.Run`. -/
def Worker.Run (t : Worker α) (x : Any α) : Call α := t.f x

/-- The text of the error built for input `x` and recovered value `e`. -/
def faultText (x : Any α) (e : α) : String :=
  "param: " ++ (Operand.any x).printArg ++
    (if (Operand.any x : Operand α).isString || GoValue.kindString e then "" else " ") ++
    GoValue.format e

/-! ## Pool -/

/-- A channel made by `make(chan interface{})`: it has no buffer, so a value
passes only when a sender meets a receiver, and the state of the channel is
whether it has been closed. -/
structure Chan where
  closed : Bool
  deriving DecidableEq, Repr

/-- Modelled from the spec: the registry type `smap.SMap`, a thread-safe
associative container with insert-by-key and delete-by-key; its entries are
kept as a list with at most one entry per key. -/
structure SMap (α : Type) where
  entries : List (String × Any α)

/-- Modelled from the spec: `smap.New`, the empty registry. -/
def SMap.New : SMap α := { entries := [] }

/-- Modelled from the spec: `SMap.Delete`, delete-by-key. -/
def SMap.Delete (m : SMap α) (key : String) : SMap α :=
  { entries := m.entries.filter (fun e => e.1 != key) }

/-- Modelled from the spec: `SMap.Set`, insert-by-key; an entry already held
under the key is replaced. -/
def SMap.Set (m : SMap α) (key : String) (value : Any α) : SMap α :=
  { entries := (key, value) :: (m.Delete key).entries }

/-- The number of entries of the registry. -/
def SMap.size (m : SMap α) : Nat := m.entries.length

/-- Where the goroutine executing `Run` stands: at the test of the `for`
loop, before one of the three statements of its body, before `p.wg.Wait()`,
before `p.OutDone()`, or returned. -/
inductive RunPc where
  | forLoop (i : Int)
  | wgAdd (i : Int)
  | sleep (i : Int)
  | goWork (i : Int)
  | wgWait
  | outDone
  | returned
  deriving DecidableEq, Repr

/-- Where a goroutine executing `work` stands: receiving from `p.In`, before
`if p.Done`, before `Tick := p.NewTick(); p.JobsList.Set(Tick, param)`, before
`out, err := f.Run(param)`, before `p.JobsList.Delete(Tick)`, sending on
`p.Out`, in the deferred `p.wg.Done()`, or finished. -/
inductive WorkPc (α : Type) where
  | recv
  | check (param : Any α)
  | newTick (param : Any α)
  | run (Tick : String) (param : Any α)
  | delete (Tick : String) (out : Any α) (err : GoError)
  | send (out : Any α)
  | wgDone
  | exited
  deriving DecidableEq, Repr

/-- The struct `Pool` (its field `Jobs` is never used and is left out),
together with the goroutines working on it (`runPc` for the caller of `Run`,
`workPcs` for those started by `go p.work()`), whether an unrecovered panic has
ended the program, and a record of what has happened: the values received
from `In`, the values received from `Out`, the inputs the transformation was
invoked on, the lines given to `slog.Debug`, the number of `wg.Add(1)` calls
and the number of times `Out` was closed. -/
structure Pool (α : Type) where
  Function : Func α
  In : Chan
  Out : Chan
  threads : Int
  Interval : Int
  JobsList : SMap α
  wg : Int
  Done : Bool
  runPc : RunPc
  workPcs : List (WorkPc α)
  crashed : Bool
  fed : List (Any α)
  taken : List (Any α)
  invoked : List (Any α)
  slog : List (GoError × Any α)
  wgAdds : Nat
  outCloses : Nat

/-- The function `NewPool`; the caller of `Run` stands at the start of `Run`. -/
def NewPool (threads : Int) : Pool α :=
  { threads := threads
    JobsList := SMap.New
    wg := 0
    Out := { closed := false }
    In := { closed := false }
    Function := none
    Done := false
    Interval := 0
    runPc := .forLoop 0
    workPcs := []
    crashed := false
    fed := []
    taken := []
    invoked := []
    slog := []
    wgAdds := 0
    outCloses := 0 }

/-- An unrecovered panic ends the program. -/
def Pool.crash (p : Pool α) : Pool α := { p with crashed := true }

/-- Moving the work goroutine `k` to `pc`. -/
def Pool.setWork (p : Pool α) (k : Nat) (pc : WorkPc α) : Pool α :=
  { p with workPcs := p.workPcs.set k pc }

/-- The method `NewTick`: the string drawn by `misc.RandomString()` is given
from outside. -/
def Pool.NewTick (_p : Pool α) (random : String) : String := random

/-- The method `InDone`: `close(p.In)`; closing a closed channel panics. -/
def Pool.InDone (p : Pool α) : Pool α :=
  if p.In.closed then p.crash else { p with In := { closed := true } }

/-- The method `OutDone`: `close(p.Out)`; closing a closed channel panics. -/
def Pool.OutDone (p : Pool α) : Pool α :=
  if p.Out.closed then p.crash
  else { p with Out := { closed := true }, outCloses := p.outCloses + 1 }

/-- The method `Stop`. -/
def Pool.Stop (p : Pool α) : Pool α := { p with Done := true }

/-- One statement of the method `work`, executed by the work goroutine `k`;
`none` when the goroutine does not exist, is blocked or has finished.
`random` is what `misc.RandomString()` yields if the statement draws a ticket. -/
def Pool.work (p : Pool α) (k : Nat) (random : String) : Option (Pool α) :=
  match p.workPcs[k]? with
  | none => none
  | some .recv =>
    -- `for param := range p.In`: the loop ends when the channel is closed
    if p.In.closed then some (p.setWork k .wgDone) else none
  | some (.check param) =>
    if p.Done then some (p.setWork k .wgDone) else some (p.setWork k (.newTick param))
  | some (.newTick param) =>
    let Tick := p.NewTick random
    some { p.setWork k (.run Tick param) with JobsList := p.JobsList.Set Tick param }
  | some (.run Tick param) =>
    let f := NewWorker p.Function
    let c := f.Run param
    match c.result with
    | .returned (out, err) =>
      some { p.setWork k (.delete Tick out err) with
        invoked := p.invoked ++ [param], slog := p.slog ++ c.debug }
    | .panicked _ => some { p.crash with invoked := p.invoked ++ [param] }
  | some (.delete Tick out err) =>
    let p1 : Pool α := { p with JobsList := p.JobsList.Delete Tick }
    if err.isNone && out.isSome then some (p1.setWork k (.send out))
    else some (p1.setWork k .recv)
  | some (.send _) =>
    -- a send on a closed channel panics; otherwise it waits for a receiver
    if p.Out.closed then some p.crash else none
  | some .wgDone =>
    -- `p.wg.Done()` panics on a negative counter
    if p.wg - 1 < 0 then some p.crash
    else some { p.setWork k .exited with wg := p.wg - 1 }
  | some .exited => none

/-- One statement of the method `Run`, executed by its caller; `none` when the
caller is blocked in `p.wg.Wait()` or has returned. -/
def Pool.Run (p : Pool α) : Option (Pool α) :=
  match p.runPc with
  | .forLoop i =>
    if i < p.threads then some { p with runPc := .wgAdd i }
    else some { p with runPc := .wgWait }
  | .wgAdd i => some { p with wg := p.wg + 1, wgAdds := p.wgAdds + 1, runPc := .sleep i }
  | .sleep i => some { p with runPc := .goWork i }
  | .goWork i => some { p with workPcs := p.workPcs ++ [.recv], runPc := .forLoop (i + 1) }
  | .wgWait => if p.wg = 0 then some { p with runPc := .outDone } else none
  | .outDone =>
    let p1 := p.OutDone
    if p1.crashed then some p1 else some { p1 with runPc := .returned }
  | .returned => none

/-- A producer sends `v` on `p.In` and the work goroutine `k`, waiting in
`range p.In`, receives it; a send on a closed channel panics. -/
def Pool.feed (p : Pool α) (k : Nat) (v : Any α) : Option (Pool α) :=
  if p.In.closed then some p.crash
  else
    match p.workPcs[k]? with
    | some .recv => some { p.setWork k (.check v) with fed := p.fed ++ [v] }
    | _ => none

/-- A consumer receives from `p.Out` the value the work goroutine `k` is
sending. -/
def Pool.take (p : Pool α) (k : Nat) : Option (Pool α) :=
  match p.workPcs[k]? with
  | some (.send out) =>
    if p.Out.closed then none
    else some { p.setWork k .recv with taken := p.taken ++ [out] }
  | _ => none

/-- What can happen next: the caller of `Run` or a work goroutine executes a
statement, a value passes through `In` or `Out`, or the program around the
pool calls `InDone`, `OutDone` or `Stop`. -/
inductive Label (α : Type) where
  | run
  | work (k : Nat) (random : String)
  | feed (k : Nat) (v : Any α)
  | take (k : Nat)
  | InDone
  | OutDone
  | Stop
  deriving DecidableEq, Repr

/-- One step of the program; nothing happens after an unrecovered panic. -/
def Pool.step (p : Pool α) (l : Label α) : Option (Pool α) :=
  if p.crashed then none
  else
    match l with
    | .run => p.Run
    | .work k random => p.work k random
    | .feed k v => p.feed k v
    | .take k => p.take k
    | .InDone => some p.InDone
    | .OutDone => some p.OutDone
    | .Stop => some p.Stop

/-- Running a schedule, step after step; `none` when one of its steps cannot
be taken. -/
def exec : List (Label α) → Pool α → Option (Pool α)
  | [], p => some p
  | l :: ls, p => (p.step l).bind (exec ls)

/-- The value a work goroutine forwards to `Out` for the input `x`, if any:
the result of `Worker.Run` when it came without error and is not nil. -/
def forwarded (f : Func α) (x : Any α) : Option (Any α) :=
  match ((NewWorker f).Run x).result with
  | .returned (out, err) => if err.isNone && out.isSome then some out else none
  | .panicked _ => none

/-- The results the specification expects on the output stream for the inputs
`xs`: `f(x)` for each `x` on which `f` does not fault and yields a non-nil
value. -/
def specOutputs (f : Any α → Outcome α (Any α)) (xs : List (Any α)) : List (Any α) :=
  xs.filterMap (fun x =>
    match f x with
    | .returned (some y) => some (some y)
    | _ => none)

/-! ## Concrete values and schedules -/

/-- A small universe of dynamic values: integers, strings and runtime errors. -/
inductive Val where
  | int (i : Int)
  | str (s : String)
  | runtimeError (msg : String)
  deriving DecidableEq, Repr

/-- How `fmt` prints the values of `Val`; a call of a nil function raises the
runtime error for a nil dereference. -/
instance : GoValue Val where
  format
    | .int i => toString i
    | .str s => s
    | .runtimeError msg => msg
  kindString
    | .str _ => true
    | _ => false
  nilFuncCall := .runtimeError "runtime error: invalid memory address or nil pointer dereference"

/-- The transformation `double(x) = 2x` on integers. -/
def double : Any Val → Outcome Val (Any Val)
  | some (.int i) => .returned (some (.int (2 * i)))
  | _ => .panicked (some (.runtimeError "interface conversion"))

/-- The transformation that faults on negative integers and otherwise yields `x+1`. -/
def succNonneg : Any Val → Outcome Val (Any Val)
  | some (.int i) =>
    if i < 0 then .panicked (some (.str "negative")) else .returned (some (.int (i + 1)))
  | _ => .panicked (some (.runtimeError "interface conversion"))

/-- The transformation `func(interface{}) interface{} { panic(nil) }`. -/
def panicNil : Any Val → Outcome Val (Any Val) := fun _ => .panicked none

/-! ## Quantities used by the invariants -/

/-- One for a work goroutine that has not finished, zero for one that has. -/
def WorkPc.alive : WorkPc α → Int
  | .exited => 0
  | _ => 1

/-- The number of work goroutines that have not finished. -/
def live (ws : List (WorkPc α)) : Int := (ws.map WorkPc.alive).sum

/-- The number of `go p.work()` statements `Run` has executed when its caller
stands at the given place. -/
def RunPc.spawned (threads : Int) : RunPc → Int
  | .forLoop i | .wgAdd i | .sleep i | .goWork i => i
  | _ => max threads 0

/-- The number of `p.wg.Add(1)` statements `Run` has executed when its caller
stands at the given place. -/
def RunPc.added (threads : Int) : RunPc → Int
  | .forLoop i | .wgAdd i => i
  | .sleep i | .goWork i => i + 1
  | _ => max threads 0

/-- The loop variable `i` of `Run` is within its bounds. -/
def RunPc.inRange (threads : Int) : RunPc → Prop
  | .forLoop i => 0 ≤ i ∧ i ≤ max threads 0
  | .wgAdd i | .sleep i | .goWork i => 0 ≤ i ∧ i < threads
  | _ => True

/-- The caller of `Run` has passed `p.wg.Wait()`. -/
def RunPc.waited : RunPc → Bool
  | .outDone | .returned => true
  | _ => false

/-- The bookkeeping of `Run`: as many work goroutines and `wg.Add(1)` calls as
the place of its caller tells, a barrier counter equal to the number of
unfinished work goroutines (plus one between `wg.Add(1)` and `go p.work()`),
and no unfinished work goroutine once `p.wg.Wait()` has been passed. -/
structure Counted (p : Pool α) : Prop where
  range : p.runPc.inRange p.threads
  spawned : (p.workPcs.length : Int) = p.runPc.spawned p.threads
  added : (p.wgAdds : Int) = p.runPc.added p.threads
  wg : p.wg = live p.workPcs + (p.runPc.added p.threads - p.runPc.spawned p.threads)
  waited : p.runPc.waited = true → live p.workPcs = 0

/-- The ticket a work goroutine holds in the registry, if any. -/
def WorkPc.ticket : WorkPc α → Option String
  | .run t _ => some t
  | .delete t _ _ => some t
  | _ => none

/-- The keys of the registry. -/
def SMap.keys (m : SMap α) : List String := m.entries.map Prod.fst

/-- The registry holds at most one entry per key, and every key is the ticket
of a work goroutine that is between `JobsList.Set` and `JobsList.Delete`. -/
structure Registered (p : Pool α) : Prop where
  nodup : p.JobsList.keys.Nodup
  held : ∀ key ∈ p.JobsList.keys, key ∈ p.workPcs.filterMap WorkPc.ticket

/-- Assigning the field `Function`. -/
def Pool.withFunction (p : Pool α) (f : Func α) : Pool α := { p with Function := f }

/-- The steps in which the caller of `Run` starts `n` work goroutines and
reaches `p.wg.Wait()`. -/
def spawnSteps : Nat → List (Label α)
  | 0 => [.run]
  | n + 1 => [.run, .run, .run, .run] ++ spawnSteps n

/-- The pool while `Run` is in its `for` loop with `i` goroutines started and
nothing else has happened. -/
def spawning (f : Func α) (threads : Int) (i : Nat) : Pool α :=
  { (NewPool threads : Pool α) with
    Function := f, wg := i, wgAdds := i, runPc := .forLoop i,
    workPcs := List.replicate i .recv }

/-- The pool while the caller of `Run` waits in `p.wg.Wait()`, all `n` work
goroutines wait for an input, and the inputs `fed` have been worked off. -/
def serving (f : Func α) (threads : Int) (n : Nat) (fed taken invoked : List (Any α))
    (slog : List (GoError × Any α)) : Pool α :=
  { (NewPool threads : Pool α) with
    Function := f, wg := n, wgAdds := n, runPc := .wgWait,
    workPcs := List.replicate n .recv,
    fed := fed, taken := taken, invoked := invoked, slog := slog }

/-- A schedule for `threads = 3` and `double` on the inputs 1 to 5: the three
work goroutines take the inputs in turn, the input stream is closed, the
goroutines finish and `Run` returns. -/
def doubleSchedule : List (Label Val) :=
  spawnSteps 3 ++
  [.feed 0 (some (.int 1)), .work 0 "", .work 0 "a", .work 0 "", .work 0 "", .take 0,
   .feed 1 (some (.int 2)), .work 1 "", .work 1 "b", .work 1 "", .work 1 "", .take 1,
   .feed 2 (some (.int 3)), .feed 0 (some (.int 4)), .feed 1 (some (.int 5)),
   .work 2 "", .work 0 "", .work 1 "", .work 2 "c", .work 0 "d", .work 1 "e",
   .work 1 "", .work 0 "", .work 2 "", .work 0 "", .work 2 "", .work 1 "",
   .take 1, .take 2, .take 0,
   .InDone, .work 0 "", .work 1 "", .work 2 "", .work 0 "", .work 1 "", .work 2 "",
   .run, .run]

/-- The pool with `threads = 3` and `Function = double`. -/
def doublePool : Pool Val := (NewPool 3).withFunction (some double)

/-- The pool at the end of `doubleSchedule`. -/
def doubleFinal : Pool Val := (exec doubleSchedule doublePool).getD doublePool

/-- The pool in the middle of `doubleSchedule`, after 34 steps: the three work
goroutines have each entered a ticket in the registry. -/
def doubleMiddle : Pool Val := (exec (doubleSchedule.take 34) doublePool).getD doublePool

/-- The output stream has been closed as many times as its state tells, and it
is closed once `Run` has returned. -/
structure ClosedOnce (p : Pool α) : Prop where
  count : p.outCloses = if p.Out.closed then 1 else 0
  returned : p.runPc = .returned → p.Out.closed = true

/-- The output stream is closed only when `Run` has returned. -/
def ClosedByRun (p : Pool α) : Prop := p.Out.closed = true → p.runPc = .returned

/-- What a work goroutine carries comes from the inputs received and from the
invocations made: a parameter is a received input, an output with its error
is the result of an invocation, a value being sent is the result of an
invocation that came without error and is not nil. -/
def WorkPc.traced (f : Func α) (fed invoked : List (Any α)) : WorkPc α → Prop
  | .check v => v ∈ fed
  | .newTick v => v ∈ fed
  | .run _ v => v ∈ fed
  | .delete _ out err => ∃ x ∈ invoked, ((NewWorker f).Run x).result = .returned (out, err)
  | .send out => ∃ x ∈ invoked, forwarded f x = some out
  | _ => True

/-- Every value received from `Out` is the forwarded result of an invocation,
every invocation was made on a received input, and every work goroutine
carries traced values. -/
structure Traced (p : Pool α) : Prop where
  taken : ∀ y ∈ p.taken, ∃ x ∈ p.invoked, forwarded p.Function x = some y
  invoked : ∀ x ∈ p.invoked, x ∈ p.fed
  pcs : ∀ pc ∈ p.workPcs, pc.traced p.Function p.fed p.invoked

/-- An optional value as a multiset with at most one element. -/
def optionMultiset {β : Type} : Option β → Multiset β
  | some y => {y}
  | none => 0

/-- The output a work goroutine still owes to the output stream (when the stop
flag stays clear): the forwarded result of the input it carries, or the
output it carries. -/
def WorkPc.pending (f : Func α) : WorkPc α → Multiset (Any α)
  | .check v => optionMultiset (forwarded f v)
  | .newTick v => optionMultiset (forwarded f v)
  | .run _ v => optionMultiset (forwarded f v)
  | .delete _ out err => if err.isNone && out.isSome then {out} else 0
  | .send out => {out}
  | _ => 0

/-- While the stop flag is clear, the values received from `Out` together with
the outputs the work goroutines still owe are the forwarded results of the
inputs received. -/
def Balanced (p : Pool α) : Prop :=
  p.Done = false →
    (p.taken : Multiset (Any α)) + (p.workPcs.map (WorkPc.pending p.Function)).sum =
      ((p.fed.filterMap (forwarded p.Function) : List (Any α)) : Multiset (Any α))

/-- The steps in which work goroutine 0 receives the input `x` and works it
off, the consumer taking the result if one is forwarded. -/
def itemSteps (f : Func α) (x : Any α) : List (Label α) :=
  [.feed 0 x, .work 0 "", .work 0 "tick", .work 0 "", .work 0 ""] ++
    (match forwarded f x with
     | some _ => [.take 0]
     | none => [])

/-- The steps in which work goroutine 0 works off the inputs `xs` one after
the other. -/
def itemsSteps (f : Func α) : List (Any α) → List (Label α)
  | [] => []
  | x :: xs => itemSteps f x ++ itemsSteps f xs

/-- The steps in which the work goroutines `j`, ..., `j + m - 1` see the
input stream closed and finish. -/
def closeSteps : Nat → Nat → List (Label α)
  | _, 0 => []
  | j, m + 1 => [.work j "", .work j ""] ++ closeSteps (j + 1) m

/-- The lines given to `slog.Debug` while the inputs `xs` are worked off. -/
def debugLines (f : Func α) : List (Any α) → List (GoError × Any α)
  | [] => []
  | x :: xs => ((NewWorker f).Run x).debug ++ debugLines f xs

/-- The pool after the input stream has been closed, when `j` work goroutines
have finished and `m` still wait in `range p.In`. -/
def closing (f : Func α) (threads : Int) (j m : Nat) (fed taken invoked : List (Any α))
    (slog : List (GoError × Any α)) : Pool α :=
  { (NewPool threads : Pool α) with
    Function := f, In := { closed := true }, wg := m, wgAdds := j + m, runPc := .wgWait,
    workPcs := List.replicate j .exited ++ List.replicate m .recv,
    fed := fed, taken := taken, invoked := invoked, slog := slog }

/-- The pool after `Run` has returned from a run of `n` work goroutines. -/
def finished (f : Func α) (threads : Int) (n : Nat) (fed taken invoked : List (Any α))
    (slog : List (GoError × Any α)) : Pool α :=
  { (NewPool threads : Pool α) with
    Function := f, In := { closed := true }, Out := { closed := true }, outCloses := 1,
    wg := 0, wgAdds := n, runPc := .returned,
    workPcs := List.replicate n .exited,
    fed := fed, taken := taken, invoked := invoked, slog := slog }

/-- A schedule that serves the inputs `xs` with `n` work goroutines: `Run`
starts them, goroutine 0 works off the inputs, the input stream is closed, the
goroutines finish, and `Run` closes the output stream and returns. -/
def serveSchedule (f : Func α) (n : Nat) (xs : List (Any α)) : List (Label α) :=
  spawnSteps n ++ (itemsSteps f xs ++ ([.InDone] ++ (closeSteps 0 n ++ [.run, .run])))

/-- A schedule in which `OutDone` is called while the work goroutines of the
`double` pool are running, and work goroutine 0 then works off the input 1. -/
def earlyCloseSchedule : List (Label Val) :=
  spawnSteps 3 ++
  [.OutDone, .feed 0 (some (.int 1)), .work 0 "", .work 0 "a", .work 0 "", .work 0 "",
   .work 0 ""]

/-- The pool after `OutDone` was called while the work goroutines are running. -/
def earlyClosed : Pool Val := (exec (earlyCloseSchedule.take 14) doublePool).getD doublePool

/-- The pool at the end of `earlyCloseSchedule`. -/
def earlyCloseFinal : Pool Val := (exec earlyCloseSchedule doublePool).getD doublePool

/-- The work goroutine has left its loop: it is in the deferred `p.wg.Done()`
or has finished. -/
def WorkPc.leaving : WorkPc α → Bool
  | .wgDone => true
  | .exited => true
  | _ => false

/-- The work goroutine `k` has left its loop. -/
def Pool.left (p : Pool α) (k : Nat) : Prop :=
  ∃ pc, p.workPcs[k]? = some pc ∧ pc.leaving = true

/-- A schedule in which `Stop` is called after work goroutine 0 of the `double`
pool has received the input 1 and before it tests the stop flag. -/
def stopSchedule : List (Label Val) :=
  spawnSteps 3 ++ [.feed 0 (some (.int 1)), .Stop]

/-- The pool at the end of `stopSchedule`. -/
def stoppedPool : Pool Val := (exec stopSchedule doublePool).getD doublePool

/-- A schedule in which work goroutine 0 of the `double` pool has received the
input 1 and has passed the test of the stop flag. -/
def passedSchedule : List (Label Val) :=
  spawnSteps 3 ++ [.feed 0 (some (.int 1)), .work 0 ""]

/-- The pool at the end of `passedSchedule`. -/
def passedPool : Pool Val := (exec passedSchedule doublePool).getD doublePool

/-! ## Lemmas -/

theorem Sprint_param (x : Any α) (e : α) :
    Sprint [.text "param: ", .any x, .any (some e)] = faultText x e := by
  cases x with
  | none =>
    cases h2 : GoValue.kindString e <;>
      simp [Sprint, doPrint, faultText, Operand.isString, Operand.printArg, h2,
        String.append_assoc]
  | some a =>
    cases h1 : GoValue.kindString a <;> cases h2 : GoValue.kindString e <;>
      simp [Sprint, doPrint, faultText, Operand.isString, Operand.printArg, h1, h2,
        String.append_assoc]

theorem run_result (f : Func α) (x : Any α) :
    ((NewWorker f).Run x).result =
      match callFunc f x with
      | .returned v => .returned (v, none)
      | .panicked none => .returned (none, none)
      | .panicked (some e) => .returned (none, some (faultText x e)) := by
  unfold Worker.Run NewWorker
  simp only
  cases h : callFunc f x with
  | returned v => simp [recover, Frame.leave]
  | panicked e =>
    cases e with
    | none => simp [recover, Frame.leave]
    | some e => simp [recover, Frame.leave, errorsNew, Sprint_param]

theorem sum_map_set {β M : Type} [AddCommMonoid M] (f : β → M) :
    ∀ (l : List β) (k : Nat) (a b : β), l[k]? = some a →
      ((l.set k b).map f).sum + f a = (l.map f).sum + f b := by
  intro l
  induction l with
  | nil => intro k a b h; simp at h
  | cons c cs ih =>
    intro k a b h
    cases k with
    | zero =>
      simp at h
      subst h
      simp [add_comm, add_left_comm]
    | succ k =>
      simp at h
      have := ih k a b h
      simp only [List.set_cons_succ, List.map_cons, List.sum_cons]
      rw [add_assoc, this, add_assoc]

theorem live_set (ws : List (WorkPc α)) (k : Nat) (a b : WorkPc α) (h : ws[k]? = some a) :
    live (ws.set k b) = live ws - a.alive + b.alive := by
  have := sum_map_set WorkPc.alive ws k a b h
  unfold live
  omega

theorem live_nonneg (ws : List (WorkPc α)) : 0 ≤ live ws := by
  induction ws with
  | nil => simp [live]
  | cons c cs ih =>
    have : 0 ≤ c.alive := by cases c <;> simp [WorkPc.alive]
    simp only [live, List.map_cons, List.sum_cons] at *
    omega

theorem run_returns (f : Func α) (x : Any α) :
    ∃ out err, ((NewWorker f).Run x).result = .returned (out, err) := by
  rw [run_result]
  cases callFunc f x with
  | returned v => exact ⟨_, _, rfl⟩
  | panicked e => cases e <;> exact ⟨_, _, rfl⟩

theorem step_elim (Q : Pool α → Label α → Pool α → Prop)
    (crash : ∀ (p : Pool α) (l : Label α), p.crashed = false → Q p l p.crash)
    (forEnter : ∀ (p : Pool α) (i : Int), p.crashed = false → p.runPc = .forLoop i → i < p.threads →
      Q p .run { p with runPc := .wgAdd i })
    (forLeave : ∀ (p : Pool α) (i : Int), p.crashed = false → p.runPc = .forLoop i → ¬ i < p.threads →
      Q p .run { p with runPc := .wgWait })
    (wgAdd : ∀ (p : Pool α) (i : Int), p.crashed = false → p.runPc = .wgAdd i →
      Q p .run { p with wg := p.wg + 1, wgAdds := p.wgAdds + 1, runPc := .sleep i })
    (sleep : ∀ (p : Pool α) (i : Int), p.crashed = false → p.runPc = .sleep i →
      Q p .run { p with runPc := .goWork i })
    (goWork : ∀ (p : Pool α) (i : Int), p.crashed = false → p.runPc = .goWork i →
      Q p .run { p with workPcs := p.workPcs ++ [.recv], runPc := .forLoop (i + 1) })
    (wgWait : ∀ (p : Pool α), p.crashed = false → p.runPc = .wgWait → p.wg = 0 →
      Q p .run { p with runPc := .outDone })
    (runOutDone : ∀ (p : Pool α), p.crashed = false → p.runPc = .outDone → p.Out.closed = false →
      Q p .run { p with Out := { closed := true }, outCloses := p.outCloses + 1,
                        runPc := .returned })
    (rangeEnd : ∀ (p : Pool α) (k : Nat) (r : String), p.crashed = false → p.workPcs[k]? = some .recv →
      p.In.closed = true → Q p (.work k r) (p.setWork k .wgDone))
    (stopped : ∀ (p : Pool α) (k : Nat) (r : String) (v : Any α), p.crashed = false → p.workPcs[k]? = some (.check v) →
      p.Done = true → Q p (.work k r) (p.setWork k .wgDone))
    (checked : ∀ (p : Pool α) (k : Nat) (r : String) (v : Any α), p.crashed = false → p.workPcs[k]? = some (.check v) →
      p.Done = false → Q p (.work k r) (p.setWork k (.newTick v)))
    (ticket : ∀ (p : Pool α) (k : Nat) (r : String) (v : Any α), p.crashed = false → p.workPcs[k]? = some (.newTick v) →
      Q p (.work k r) { p.setWork k (.run r v) with JobsList := p.JobsList.Set r v })
    (ran : ∀ (p : Pool α) (k : Nat) (r : String) (t : String) (v : Any α) (out : Any α) (err : GoError), p.crashed = false → p.workPcs[k]? = some (.run t v) →
      ((NewWorker p.Function).Run v).result = .returned (out, err) →
      Q p (.work k r) { p.setWork k (.delete t out err) with
        invoked := p.invoked ++ [v],
        slog := p.slog ++ ((NewWorker p.Function).Run v).debug })
    (deleteSend : ∀ (p : Pool α) (k : Nat) (r : String) (t : String) (out : Any α) (err : GoError), p.crashed = false →
      p.workPcs[k]? = some (.delete t out err) → err = none → out.isSome = true →
      Q p (.work k r)
        (Pool.setWork { p with JobsList := p.JobsList.Delete t } k (.send out)))
    (deleteDrop : ∀ (p : Pool α) (k : Nat) (r : String) (t : String) (out : Any α) (err : GoError), p.crashed = false →
      p.workPcs[k]? = some (.delete t out err) → ¬ (err = none ∧ out.isSome = true) →
      Q p (.work k r)
        (Pool.setWork { p with JobsList := p.JobsList.Delete t } k .recv))
    (wgDone : ∀ (p : Pool α) (k : Nat) (r : String), p.crashed = false → p.workPcs[k]? = some .wgDone → 0 ≤ p.wg - 1 →
      Q p (.work k r) { p.setWork k .exited with wg := p.wg - 1 })
    (feed : ∀ (p : Pool α) (k : Nat) (v : Any α), p.crashed = false → p.In.closed = false → p.workPcs[k]? = some .recv →
      Q p (.feed k v) { p.setWork k (.check v) with fed := p.fed ++ [v] })
    (take : ∀ (p : Pool α) (k : Nat) (out : Any α), p.crashed = false → p.workPcs[k]? = some (.send out) →
      p.Out.closed = false →
      Q p (.take k) { p.setWork k .recv with taken := p.taken ++ [out] })
    (inDone : ∀ (p : Pool α), p.crashed = false → p.In.closed = false →
      Q p .InDone { p with In := { closed := true } })
    (outDone : ∀ (p : Pool α), p.crashed = false → p.Out.closed = false →
      Q p .OutDone { p with Out := { closed := true }, outCloses := p.outCloses + 1 })
    (stop : ∀ (p : Pool α), p.crashed = false → Q p .Stop p.Stop) :
    ∀ (p : Pool α) (l : Label α) (q : Pool α), p.step l = some q → Q p l q := by
  intro p l q hs
  unfold Pool.step at hs
  split at hs
  · simp at hs
  rename_i hc
  simp only [Bool.not_eq_true] at hc
  cases l with
  | run =>
    simp only [Pool.Run] at hs
    split at hs
    · rename_i i hpc
      split at hs <;> simp only [Option.some.injEq] at hs <;> subst hs
      · exact forEnter p i hc hpc (by assumption)
      · exact forLeave p i hc hpc (by assumption)
    · rename_i i hpc
      simp only [Option.some.injEq] at hs; subst hs
      exact wgAdd p i hc hpc
    · rename_i i hpc
      simp only [Option.some.injEq] at hs; subst hs
      exact sleep p i hc hpc
    · rename_i i hpc
      simp only [Option.some.injEq] at hs; subst hs
      exact goWork p i hc hpc
    · rename_i hpc
      split at hs
      · simp only [Option.some.injEq] at hs; subst hs
        exact wgWait p hc hpc (by assumption)
      · simp at hs
    · rename_i hpc
      cases ho : p.Out.closed with
      | true =>
        simp [Pool.OutDone, ho, Pool.crash] at hs
        subst hs
        exact crash p _ hc
      | false =>
        simp only [Pool.OutDone, ho, Bool.false_eq_true, if_false] at hs
        rw [if_neg (by simp [hc])] at hs
        simp only [Option.some.injEq] at hs
        subst hs
        exact runOutDone p hc hpc ho
    · simp at hs
  | work k r =>
    simp only [Pool.work] at hs
    split at hs
    · simp at hs
    · rename_i hpc
      split at hs
      · simp only [Option.some.injEq] at hs; subst hs
        exact rangeEnd p k r hc hpc (by assumption)
      · simp at hs
    · rename_i v hpc
      split at hs <;> simp only [Option.some.injEq] at hs <;> subst hs
      · exact stopped p k r v hc hpc (by assumption)
      · exact checked p k r v hc hpc (by simpa using ‹¬ p.Done = true›)
    · rename_i v hpc
      simp only [Option.some.injEq, Pool.NewTick] at hs; subst hs
      exact ticket p k r v hc hpc
    · rename_i t v hpc
      split at hs
      · rename_i out err hres
        simp only [Option.some.injEq] at hs; subst hs
        exact ran p k r t v out err hc hpc hres
      · rename_i e hres
        obtain ⟨out, err, h⟩ := run_returns p.Function v
        rw [h] at hres
        cases hres
    · rename_i t out err hpc
      split at hs <;> simp only [Option.some.injEq] at hs <;> subst hs
      · rename_i hcond
        simp only [Bool.and_eq_true, Option.isNone_iff_eq_none] at hcond
        exact deleteSend p k r t out err hc hpc hcond.1 hcond.2
      · rename_i hcond
        simp only [Bool.and_eq_true, Option.isNone_iff_eq_none] at hcond
        exact deleteDrop p k r t out err hc hpc hcond
    · rename_i out hpc
      split at hs
      · simp only [Option.some.injEq] at hs; subst hs
        exact crash p _ hc
      · simp at hs
    · rename_i hpc
      split at hs <;> simp only [Option.some.injEq] at hs <;> subst hs
      · exact crash p _ hc
      · exact wgDone p k r hc hpc (by omega)
    · simp at hs
  | feed k v =>
    simp only [Pool.feed] at hs
    split at hs
    · simp only [Option.some.injEq] at hs; subst hs
      exact crash p _ hc
    · split at hs
      · rename_i hpc
        simp only [Option.some.injEq] at hs; subst hs
        exact feed p k v hc (by simpa using ‹¬ p.In.closed = true›) hpc
      · simp at hs
  | take k =>
    simp only [Pool.take] at hs
    split at hs
    · rename_i out hpc
      split at hs
      · simp at hs
      · simp only [Option.some.injEq] at hs; subst hs
        exact take p k out hc hpc (by simpa using ‹¬ p.Out.closed = true›)
    · simp at hs
  | InDone =>
    simp only [Option.some.injEq, Pool.InDone] at hs
    split at hs <;> subst hs
    · exact crash p _ hc
    · exact inDone p hc (by simpa using ‹¬ p.In.closed = true›)
  | OutDone =>
    simp only [Option.some.injEq, Pool.OutDone] at hs
    split at hs <;> subst hs
    · exact crash p _ hc
    · exact outDone p hc (by simpa using ‹¬ p.Out.closed = true›)
  | Stop =>
    simp only [Option.some.injEq] at hs; subst hs
    exact stop p hc

theorem exec_append (a b : List (Label α)) (p : Pool α) :
    exec (a ++ b) p = (exec a p).bind (exec b) := by
  induction a generalizing p with
  | nil => simp [exec]
  | cons l ls ih =>
    simp only [List.cons_append, exec]
    cases h : p.step l with
    | none => simp
    | some q => simp [ih]

theorem exec_invariant (A : Label α → Prop) (P : Pool α → Prop)
    (hstep : ∀ p l q, A l → P p → p.step l = some q → P q) :
    ∀ (tr : List (Label α)) (p s : Pool α), (∀ l ∈ tr, A l) → P p → exec tr p = some s → P s := by
  intro tr
  induction tr with
  | nil => intro p s _ hp h; simp [exec] at h; exact h ▸ hp
  | cons l ls ih =>
    intro p s hA hp h
    simp only [exec] at h
    cases hq : p.step l with
    | none => simp [hq] at h
    | some q =>
      simp [hq] at h
      exact ih q s (fun l hl => hA l (List.mem_cons_of_mem _ hl))
        (hstep p l q (hA l (List.mem_cons_self _ _)) hp hq) h

theorem live_append_recv (ws : List (WorkPc α)) : live (ws ++ [.recv]) = live ws + 1 := by
  simp [live, WorkPc.alive]

theorem Counted.countedMove {p q : Pool α} {k : Nat} {a b : WorkPc α} (h : Counted p)
    (hk : p.workPcs[k]? = some a)
    (h1 : q.runPc = p.runPc) (h2 : q.threads = p.threads) (h3 : q.wgAdds = p.wgAdds)
    (h4 : q.workPcs = p.workPcs.set k b)
    (h5 : q.wg = p.wg - a.alive + b.alive) (h6 : b.alive ≤ a.alive) : Counted q := by
  have hl := live_set p.workPcs k a b hk
  have hl0 := live_set p.workPcs k a .exited hk
  have hn := live_nonneg (p.workPcs.set k .exited)
  have hb : 0 ≤ b.alive := by cases b <;> simp [WorkPc.alive]
  have he : (WorkPc.exited : WorkPc α).alive = 0 := rfl
  rw [he] at hl0
  obtain ⟨c1, c2, c3, c4, c5⟩ := h
  refine ⟨?_, ?_, ?_, ?_, ?_⟩
  · rw [h1, h2]; exact c1
  · rw [h1, h2, h4, List.length_set]; exact c2
  · rw [h1, h2, h3]; exact c3
  · rw [h1, h2, h4, h5, hl]; omega
  · rw [h1, h4, hl]; intro hw; have := c5 hw; omega

theorem Counted.countedSame {p q : Pool α} (h : Counted p)
    (h1 : q.runPc = p.runPc) (h2 : q.threads = p.threads) (h3 : q.wgAdds = p.wgAdds)
    (h4 : q.workPcs = p.workPcs) (h5 : q.wg = p.wg) : Counted q := by
  obtain ⟨c1, c2, c3, c4, c5⟩ := h
  refine ⟨?_, ?_, ?_, ?_, ?_⟩
  · rw [h1, h2]; exact c1
  · rw [h1, h2, h4]; exact c2
  · rw [h1, h2, h3]; exact c3
  · rw [h1, h2, h4, h5]; exact c4
  · rw [h1, h4]; exact c5

theorem Counted_step (p : Pool α) (l : Label α) (q : Pool α) (hs : p.step l = some q) :
    Counted p → Counted q := by
  revert hs
  apply step_elim (fun p l q => Counted p → Counted q)
  case crash => intro p l _ h; exact h.countedSame rfl rfl rfl rfl rfl
  case forEnter =>
    intro p i _ hpc hlt h
    obtain ⟨h1, h2, h3, h4, h5⟩ := h
    simp only [hpc, RunPc.inRange, RunPc.spawned, RunPc.added, RunPc.waited] at h1 h2 h3 h4 h5
    constructor <;> simp only [RunPc.inRange, RunPc.spawned, RunPc.added, RunPc.waited] <;>
      first | omega | simp
  case forLeave =>
    intro p i _ hpc hlt h
    obtain ⟨h1, h2, h3, h4, h5⟩ := h
    simp only [hpc, RunPc.inRange, RunPc.spawned, RunPc.added, RunPc.waited] at h1 h2 h3 h4 h5
    constructor <;> simp only [RunPc.inRange, RunPc.spawned, RunPc.added, RunPc.waited] <;>
      first | omega | simp
  case wgAdd =>
    intro p i _ hpc h
    obtain ⟨h1, h2, h3, h4, h5⟩ := h
    simp only [hpc, RunPc.inRange, RunPc.spawned, RunPc.added, RunPc.waited] at h1 h2 h3 h4 h5
    constructor <;> simp only [RunPc.inRange, RunPc.spawned, RunPc.added, RunPc.waited] <;>
      first | omega | simp
  case sleep =>
    intro p i _ hpc h
    obtain ⟨h1, h2, h3, h4, h5⟩ := h
    simp only [hpc, RunPc.inRange, RunPc.spawned, RunPc.added, RunPc.waited] at h1 h2 h3 h4 h5
    constructor <;> simp only [RunPc.inRange, RunPc.spawned, RunPc.added, RunPc.waited] <;>
      first | omega | simp
  case goWork =>
    intro p i _ hpc h
    obtain ⟨h1, h2, h3, h4, h5⟩ := h
    simp only [hpc, RunPc.inRange, RunPc.spawned, RunPc.added, RunPc.waited] at h1 h2 h3 h4 h5
    constructor <;>
      simp only [RunPc.inRange, RunPc.spawned, RunPc.added, RunPc.waited, live_append_recv,
        List.length_append, List.length_singleton, Nat.cast_add, Nat.cast_one] <;>
      first | omega | simp
  case wgWait =>
    intro p _ hpc hwg h
    obtain ⟨h1, h2, h3, h4, h5⟩ := h
    simp only [hpc, RunPc.inRange, RunPc.spawned, RunPc.added, RunPc.waited] at h1 h2 h3 h4 h5
    constructor <;> simp only [RunPc.inRange, RunPc.spawned, RunPc.added, RunPc.waited] <;>
      omega
  case runOutDone =>
    intro p _ hpc ho h
    obtain ⟨h1, h2, h3, h4, h5⟩ := h
    simp only [hpc, RunPc.inRange, RunPc.spawned, RunPc.added, RunPc.waited] at h1 h2 h3 h4 h5
    constructor <;> simp only [RunPc.inRange, RunPc.spawned, RunPc.added, RunPc.waited] <;>
      first | omega | exact fun _ => h5 trivial
  case rangeEnd =>
    intro p k r _ hk _ h
    exact h.countedMove hk rfl rfl rfl rfl (by simp [WorkPc.alive, Pool.setWork]) (by simp [WorkPc.alive])
  case stopped =>
    intro p k r v _ hk _ h
    exact h.countedMove hk rfl rfl rfl rfl (by simp [WorkPc.alive, Pool.setWork]) (by simp [WorkPc.alive])
  case checked =>
    intro p k r v _ hk _ h
    exact h.countedMove hk rfl rfl rfl rfl (by simp [WorkPc.alive, Pool.setWork]) (by simp [WorkPc.alive])
  case ticket =>
    intro p k r v _ hk h
    exact h.countedMove hk rfl rfl rfl rfl (by simp [WorkPc.alive, Pool.setWork]) (by simp [WorkPc.alive])
  case ran =>
    intro p k r t v out err _ hk _ h
    exact h.countedMove hk rfl rfl rfl rfl (by simp [WorkPc.alive, Pool.setWork]) (by simp [WorkPc.alive])
  case deleteSend =>
    intro p k r t out err _ hk _ _ h
    exact h.countedMove hk rfl rfl rfl rfl (by simp [WorkPc.alive, Pool.setWork]) (by simp [WorkPc.alive])
  case deleteDrop =>
    intro p k r t out err _ hk _ h
    exact h.countedMove hk rfl rfl rfl rfl (by simp [WorkPc.alive, Pool.setWork]) (by simp [WorkPc.alive])
  case wgDone =>
    intro p k r _ hk _ h
    exact h.countedMove hk rfl rfl rfl rfl (by simp [WorkPc.alive, Pool.setWork]) (by simp [WorkPc.alive])
  case feed =>
    intro p k v _ _ hk h
    exact h.countedMove hk rfl rfl rfl rfl (by simp [WorkPc.alive, Pool.setWork]) (by simp [WorkPc.alive])
  case take =>
    intro p k out _ hk _ h
    exact h.countedMove hk rfl rfl rfl rfl (by simp [WorkPc.alive, Pool.setWork]) (by simp [WorkPc.alive])
  case inDone => intro p _ _ h; exact h.countedSame rfl rfl rfl rfl rfl
  case outDone => intro p _ _ h; exact h.countedSame rfl rfl rfl rfl rfl
  case stop => intro p _ h; exact h.countedSame rfl rfl rfl rfl rfl

theorem keys_Delete (m : SMap α) (t : String) :
    (m.Delete t).keys = m.keys.filter (fun key => key != t) := by
  simp only [SMap.keys, SMap.Delete, List.filter_map]
  rfl

theorem keys_Set (m : SMap α) (t : String) (v : Any α) :
    (m.Set t v).keys = t :: m.keys.filter (fun key => key != t) := by
  have h := keys_Delete m t
  simp only [SMap.keys] at h
  simp only [SMap.Set, SMap.keys, List.map_cons, h]

theorem mem_tickets_set (ws : List (WorkPc α)) (k : Nat) (a b : WorkPc α) (key : String)
    (hk : ws[k]? = some a) (hab : a.ticket = some key → b.ticket = some key)
    (h : key ∈ ws.filterMap WorkPc.ticket) : key ∈ (ws.set k b).filterMap WorkPc.ticket := by
  rw [List.mem_filterMap] at h ⊢
  obtain ⟨pc, hpc, ht⟩ := h
  obtain ⟨j, hj⟩ := List.mem_iff_getElem?.1 hpc
  by_cases hjk : k = j
  · subst hjk
    rw [hk] at hj
    cases hj
    refine ⟨b, ?_, hab ht⟩
    have hlt : k < ws.length := by
      obtain ⟨h, _⟩ := List.getElem?_eq_some.1 hk
      exact h
    exact List.mem_iff_getElem?.2 ⟨k, List.getElem?_set_self hlt⟩
  · refine ⟨pc, ?_, ht⟩
    exact List.mem_iff_getElem?.2 ⟨j, by rw [List.getElem?_set_ne hjk]; exact hj⟩

theorem mem_tickets_set_self (ws : List (WorkPc α)) (k : Nat) (a b : WorkPc α) (key : String)
    (hk : ws[k]? = some a) (hb : b.ticket = some key) :
    key ∈ (ws.set k b).filterMap WorkPc.ticket := by
  rw [List.mem_filterMap]
  have hlt : k < ws.length := by
    obtain ⟨h, _⟩ := List.getElem?_eq_some.1 hk
    exact h
  exact ⟨b, List.mem_iff_getElem?.2 ⟨k, List.getElem?_set_self hlt⟩, hb⟩

theorem Registered.registeredMove {p q : Pool α} {k : Nat} {a b : WorkPc α} (h : Registered p)
    (hk : p.workPcs[k]? = some a) (h1 : q.JobsList = p.JobsList)
    (h2 : q.workPcs = p.workPcs.set k b)
    (hab : ∀ key, a.ticket = some key → b.ticket = some key) : Registered q := by
  refine ⟨?_, ?_⟩
  · rw [h1]; exact h.nodup
  · rw [h1, h2]
    intro key hkey
    exact mem_tickets_set _ _ _ _ _ hk (hab key) (h.held key hkey)

theorem Registered.registeredSame {p q : Pool α} (h : Registered p)
    (h1 : q.JobsList = p.JobsList) (h2 : q.workPcs = p.workPcs) : Registered q := by
  refine ⟨?_, ?_⟩
  · rw [h1]; exact h.nodup
  · rw [h1, h2]; exact h.held

theorem Registered_step (p : Pool α) (l : Label α) (q : Pool α) (hs : p.step l = some q) :
    Registered p → Registered q := by
  revert hs
  apply step_elim (fun p l q => Registered p → Registered q)
  case crash => intro p l _ h; exact h.registeredSame rfl rfl
  case forEnter => intro p i _ _ _ h; exact h.registeredSame rfl rfl
  case forLeave => intro p i _ _ _ h; exact h.registeredSame rfl rfl
  case wgAdd => intro p i _ _ h; exact h.registeredSame rfl rfl
  case sleep => intro p i _ _ h; exact h.registeredSame rfl rfl
  case goWork =>
    intro p i _ _ h
    refine ⟨h.nodup, ?_⟩
    intro key hkey
    have := h.held key hkey
    simpa [WorkPc.ticket] using this
  case wgWait => intro p _ _ _ h; exact h.registeredSame rfl rfl
  case runOutDone => intro p _ _ _ h; exact h.registeredSame rfl rfl
  case rangeEnd =>
    intro p k r _ hk _ h
    exact h.registeredMove hk rfl rfl (by simp [WorkPc.ticket])
  case stopped =>
    intro p k r v _ hk _ h
    exact h.registeredMove hk rfl rfl (by simp [WorkPc.ticket])
  case checked =>
    intro p k r v _ hk _ h
    exact h.registeredMove hk rfl rfl (by simp [WorkPc.ticket])
  case ticket =>
    intro p k r v _ hk h
    refine ⟨?_, ?_⟩
    · show (p.JobsList.Set r v).keys.Nodup
      rw [keys_Set]
      refine List.nodup_cons.2 ⟨?_, h.nodup.filter _⟩
      simp
    · show ∀ key ∈ (p.JobsList.Set r v).keys, key ∈ (p.workPcs.set k (.run r v)).filterMap _
      rw [keys_Set]
      intro key hkey
      rcases List.mem_cons.1 hkey with rfl | hkey
      · exact mem_tickets_set_self _ _ _ _ _ hk rfl
      · exact mem_tickets_set _ _ _ _ _ hk (by simp [WorkPc.ticket])
          (h.held key (List.mem_filter.1 hkey).1)
  case ran =>
    intro p k r t v out err _ hk _ h
    exact h.registeredMove hk rfl rfl (by simp [WorkPc.ticket])
  case deleteSend =>
    intro p k r t out err _ hk _ _ h
    refine ⟨?_, ?_⟩
    · show (p.JobsList.Delete t).keys.Nodup
      rw [keys_Delete]
      exact h.nodup.filter _
    · show ∀ key ∈ (p.JobsList.Delete t).keys, key ∈ (p.workPcs.set k (.send out)).filterMap _
      rw [keys_Delete]
      intro key hkey
      obtain ⟨hmem, hne⟩ := List.mem_filter.1 hkey
      refine mem_tickets_set _ _ _ _ _ hk ?_ (h.held key hmem)
      intro hc
      simp only [WorkPc.ticket, Option.some.injEq] at hc
      simp [hc] at hne
  case deleteDrop =>
    intro p k r t out err _ hk _ h
    refine ⟨?_, ?_⟩
    · show (p.JobsList.Delete t).keys.Nodup
      rw [keys_Delete]
      exact h.nodup.filter _
    · show ∀ key ∈ (p.JobsList.Delete t).keys, key ∈ (p.workPcs.set k .recv).filterMap _
      rw [keys_Delete]
      intro key hkey
      obtain ⟨hmem, hne⟩ := List.mem_filter.1 hkey
      refine mem_tickets_set _ _ _ _ _ hk ?_ (h.held key hmem)
      intro hc
      simp only [WorkPc.ticket, Option.some.injEq] at hc
      simp [hc] at hne
  case wgDone =>
    intro p k r _ hk _ h
    exact h.registeredMove hk rfl rfl (by simp [WorkPc.ticket])
  case feed =>
    intro p k v _ _ hk h
    exact h.registeredMove hk rfl rfl (by simp [WorkPc.ticket])
  case take =>
    intro p k out _ hk _ h
    exact h.registeredMove hk rfl rfl (by simp [WorkPc.ticket])
  case inDone => intro p _ _ h; exact h.registeredSame rfl rfl
  case outDone => intro p _ _ h; exact h.registeredSame rfl rfl
  case stop => intro p _ h; exact h.registeredSame rfl rfl

theorem Counted_init (threads : Int) (f : Func α) :
    Counted ((NewPool threads : Pool α).withFunction f) := by
  constructor <;>
    simp [NewPool, Pool.withFunction, RunPc.inRange, RunPc.spawned, RunPc.added, RunPc.waited, live]

theorem Registered_init (threads : Int) (f : Func α) :
    Registered ((NewPool threads : Pool α).withFunction f) := by
  constructor <;> simp [NewPool, Pool.withFunction, SMap.keys, SMap.New]

theorem reachable_counted (threads : Int) (f : Func α) (tr : List (Label α)) (s : Pool α)
    (h : exec tr ((NewPool threads).withFunction f) = some s) : Counted s :=
  exec_invariant (fun _ => True) Counted (fun p l q _ hp hs => Counted_step p l q hs hp)
    tr _ s (fun _ _ => trivial) (Counted_init threads f) h

theorem reachable_registered (threads : Int) (f : Func α) (tr : List (Label α)) (s : Pool α)
    (h : exec tr ((NewPool threads).withFunction f) = some s) : Registered s :=
  exec_invariant (fun _ => True) Registered (fun p l q _ hp hs => Registered_step p l q hs hp)
    tr _ s (fun _ _ => trivial) (Registered_init threads f) h

theorem spawn_one (f : Func α) (threads : Int) (i : Nat) (h : (i : Int) < threads) :
    exec [.run, .run, .run, .run] (spawning f threads i) = some (spawning f threads (i + 1)) := by
  simp [exec, Pool.step, Pool.Run, spawning, NewPool, h, List.replicate_succ']

theorem spawn_last (f : Func α) (threads : Int) (i : Nat) (h : ¬ (i : Int) < threads) :
    exec [.run] (spawning f threads i) = some (serving f threads i [] [] [] []) := by
  simp [exec, Pool.step, Pool.Run, spawning, serving, NewPool, h]

theorem spawn_all (f : Func α) (threads : Int) :
    ∀ (m i : Nat), (i : Int) + m = max threads i →
      exec (spawnSteps m) (spawning f threads i) = some (serving f threads (i + m) [] [] [] []) := by
  intro m
  induction m with
  | zero =>
    intro i h
    exact spawn_last f threads i (by omega)
  | succ m ih =>
    intro i h
    rw [spawnSteps, exec_append, spawn_one f threads i (by omega)]
    simp only [Option.some_bind]
    rw [ih (i + 1) (by push_cast; omega)]
    congr 2
    omega

theorem spawning_zero (f : Func α) (threads : Int) :
    (NewPool threads : Pool α).withFunction f = spawning f threads 0 := by
  simp [spawning, NewPool, Pool.withFunction]

theorem spawn_from_new (f : Func α) (threads : Int) :
    exec (spawnSteps threads.toNat) ((NewPool threads : Pool α).withFunction f) =
      some (serving f threads threads.toNat [] [] [] []) := by
  rw [spawning_zero]
  have := spawn_all f threads threads.toNat 0 (by omega)
  simpa using this

theorem live_eq_zero (ws : List (WorkPc α)) (h : live ws = 0) : ∀ pc ∈ ws, pc = .exited := by
  induction ws with
  | nil => simp
  | cons c cs ih =>
    have hn := live_nonneg cs
    have hc : 0 ≤ c.alive := by cases c <;> simp [WorkPc.alive]
    simp only [live, List.map_cons, List.sum_cons] at h hn ih
    intro pc hpc
    rcases List.mem_cons.1 hpc with rfl | hpc
    · cases pc <;> simp [WorkPc.alive] at h hc ⊢ <;> omega
    · exact ih (by omega) pc hpc

theorem tickets_nil_of_exited (ws : List (WorkPc α)) (h : ∀ pc ∈ ws, pc = .exited) :
    ws.filterMap WorkPc.ticket = [] := by
  rw [List.filterMap_eq_nil_iff]
  intro pc hpc
  rw [h pc hpc]
  rfl

theorem size_le_workers (p : Pool α) (h : Registered p) :
    p.JobsList.size ≤ p.workPcs.length := by
  have h1 : p.JobsList.keys.length ≤ (p.workPcs.filterMap WorkPc.ticket).length :=
    (List.subperm_of_subset h.nodup h.held).length_le
  have h2 := List.length_filterMap_le WorkPc.ticket p.workPcs
  simp only [SMap.keys, List.length_map] at h1
  simp only [SMap.size]
  omega

theorem workers_le_threads (p : Pool α) (h : Counted p) :
    (p.workPcs.length : Int) ≤ max p.threads 0 := by
  obtain ⟨h1, h2, _, _, _⟩ := h
  rw [h2]
  cases hpc : p.runPc <;> simp only [hpc, RunPc.inRange, RunPc.spawned] at h1 ⊢ <;> omega

theorem step_threads (p : Pool α) (l : Label α) (q : Pool α) (hs : p.step l = some q) :
    q.threads = p.threads ∧ q.Function = p.Function := by
  revert hs
  apply step_elim (fun p l q => q.threads = p.threads ∧ q.Function = p.Function)
  all_goals intros
  all_goals exact ⟨rfl, rfl⟩

theorem reachable_threads (threads : Int) (f : Func α) (tr : List (Label α)) (s : Pool α)
    (h : exec tr ((NewPool threads).withFunction f) = some s) :
    s.threads = threads ∧ s.Function = f :=
  exec_invariant (fun _ => True) (fun p => p.threads = threads ∧ p.Function = f)
    (fun p l q _ hp hs => by
      obtain ⟨h1, h2⟩ := step_threads p l q hs
      exact ⟨h1.trans hp.1, h2.trans hp.2⟩)
    tr _ s (fun _ _ => trivial) ⟨rfl, rfl⟩ h

theorem doubleFinal_exec : exec doubleSchedule doublePool = some doubleFinal := by rfl

theorem doubleMiddle_exec : exec (doubleSchedule.take 34) doublePool = some doubleMiddle := by rfl

theorem ClosedOnce_step (p : Pool α) (l : Label α) (q : Pool α) (hs : p.step l = some q) :
    ClosedOnce p → ClosedOnce q := by
  revert hs
  apply step_elim (fun p l q => ClosedOnce p → ClosedOnce q)
  all_goals intros
  all_goals rename ClosedOnce _ => h
  all_goals obtain ⟨h1, h2⟩ := h
  all_goals constructor
  all_goals simp_all [Pool.setWork, Pool.crash, Pool.Stop]

theorem ClosedByRun_step (p : Pool α) (l : Label α) (q : Pool α) (hs : p.step l = some q) :
    l ≠ .OutDone → ClosedByRun p → ClosedByRun q := by
  revert hs
  apply step_elim (fun p l q => l ≠ .OutDone → ClosedByRun p → ClosedByRun q)
  all_goals intros
  all_goals rename ClosedByRun _ => h
  all_goals unfold ClosedByRun at h ⊢
  all_goals simp_all [Pool.setWork, Pool.crash, Pool.Stop]

theorem forwarded_eq_some (f : Func α) (x y : Any α) :
    forwarded f x = some y ↔
      ((NewWorker f).Run x).result = .returned (y, none) ∧ y.isSome = true := by
  unfold forwarded
  obtain ⟨out, err, h⟩ := run_returns f x
  rw [h]
  cases err with
  | none =>
    cases out with
    | none =>
      simp
      intro h1
      exact h1.symm
    | some o =>
      simp only [Option.isNone_none, Option.isSome_some, Bool.and_self, if_true,
        Option.some.injEq, Outcome.returned.injEq, Prod.mk.injEq, and_true]
      constructor
      · intro h1; subst h1; simp
      · intro h1; exact h1.1
  | some e => simp

theorem WorkPc.traced_mono (f : Func α) (fed invoked fed2 invoked2 : List (Any α))
    (h1 : ∀ x ∈ fed, x ∈ fed2) (h2 : ∀ x ∈ invoked, x ∈ invoked2) (pc : WorkPc α)
    (h : pc.traced f fed invoked) : pc.traced f fed2 invoked2 := by
  cases pc <;> simp only [WorkPc.traced] at h ⊢
  · exact h1 _ h
  · exact h1 _ h
  · exact h1 _ h
  · obtain ⟨x, hx, hr⟩ := h; exact ⟨x, h2 x hx, hr⟩
  · obtain ⟨x, hx, hr⟩ := h; exact ⟨x, h2 x hx, hr⟩

theorem Traced.tracedMove {p q : Pool α} {k : Nat} {a b : WorkPc α} (h : Traced p)
    (hk : p.workPcs[k]? = some a) (hF : q.Function = p.Function)
    (hw : q.workPcs = p.workPcs.set k b)
    (hfed : ∀ x ∈ p.fed, x ∈ q.fed) (hinv : ∀ x ∈ p.invoked, x ∈ q.invoked)
    (hinv2 : ∀ x ∈ q.invoked, x ∈ q.fed)
    (htaken : ∀ y ∈ q.taken, y ∈ p.taken ∨ a = .send y)
    (hb : a.traced p.Function p.fed p.invoked → b.traced q.Function q.fed q.invoked) :
    Traced q := by
  have hmem : a ∈ p.workPcs := List.mem_iff_getElem?.2 ⟨k, hk⟩
  have ha := h.pcs a hmem
  refine ⟨?_, hinv2, ?_⟩
  · intro y hy
    rw [hF]
    rcases htaken y hy with hy | hy
    · obtain ⟨x, hx, hr⟩ := h.taken y hy
      exact ⟨x, hinv x hx, hr⟩
    · subst hy
      obtain ⟨x, hx, hr⟩ := ha
      exact ⟨x, hinv x hx, hr⟩
  · intro pc hpc
    rw [hw] at hpc
    rcases List.mem_or_eq_of_mem_set hpc with hpc | hpc
    · rw [hF]
      exact WorkPc.traced_mono _ _ _ _ _ hfed hinv pc (h.pcs pc hpc)
    · rw [hpc]
      exact hb ha

theorem Traced.tracedSame {p q : Pool α} (h : Traced p) (hF : q.Function = p.Function)
    (hw : ∀ pc ∈ q.workPcs, pc ∈ p.workPcs ∨ pc = .recv)
    (hfed : q.fed = p.fed) (hinv : q.invoked = p.invoked) (htaken : q.taken = p.taken) :
    Traced q := by
  refine ⟨?_, ?_, ?_⟩
  · rw [htaken, hinv, hF]; exact h.taken
  · rw [hinv, hfed]; exact h.invoked
  · intro pc hpc
    rw [hF, hfed, hinv]
    rcases hw pc hpc with hpc | hpc
    · exact h.pcs pc hpc
    · rw [hpc]; trivial

theorem Traced_step (p : Pool α) (l : Label α) (q : Pool α) (hs : p.step l = some q) :
    Traced p → Traced q := by
  revert hs
  apply step_elim (fun p l q => Traced p → Traced q)
  case crash => intro p l _ h; exact h.tracedSame rfl (fun _ h => Or.inl h) rfl rfl rfl
  case forEnter => intro p i _ _ _ h; exact h.tracedSame rfl (fun _ h => Or.inl h) rfl rfl rfl
  case forLeave => intro p i _ _ _ h; exact h.tracedSame rfl (fun _ h => Or.inl h) rfl rfl rfl
  case wgAdd => intro p i _ _ h; exact h.tracedSame rfl (fun _ h => Or.inl h) rfl rfl rfl
  case sleep => intro p i _ _ h; exact h.tracedSame rfl (fun _ h => Or.inl h) rfl rfl rfl
  case goWork =>
    intro p i _ _ h
    refine h.tracedSame rfl ?_ rfl rfl rfl
    intro pc hpc
    simpa using hpc
  case wgWait => intro p _ _ _ h; exact h.tracedSame rfl (fun _ h => Or.inl h) rfl rfl rfl
  case runOutDone => intro p _ _ _ h; exact h.tracedSame rfl (fun _ h => Or.inl h) rfl rfl rfl
  case rangeEnd =>
    intro p k r _ hk _ h
    exact h.tracedMove hk rfl rfl (fun _ h => h) (fun _ h => h) h.invoked (fun _ h => Or.inl h)
      (fun _ => trivial)
  case stopped =>
    intro p k r v _ hk _ h
    exact h.tracedMove hk rfl rfl (fun _ h => h) (fun _ h => h) h.invoked (fun _ h => Or.inl h)
      (fun _ => trivial)
  case checked =>
    intro p k r v _ hk _ h
    exact h.tracedMove hk rfl rfl (fun _ h => h) (fun _ h => h) h.invoked (fun _ h => Or.inl h)
      (fun h => h)
  case ticket =>
    intro p k r v _ hk h
    exact h.tracedMove hk rfl rfl (fun _ h => h) (fun _ h => h) h.invoked (fun _ h => Or.inl h)
      (fun h => h)
  case ran =>
    intro p k r t v out err _ hk hres h
    have ha : v ∈ p.fed := h.pcs _ (List.mem_iff_getElem?.2 ⟨k, hk⟩)
    refine h.tracedMove hk rfl rfl (fun _ h => h) (fun x hx => List.mem_append_left _ hx) ?_
      (fun _ h => Or.inl h) ?_
    · intro x hx
      rcases List.mem_append.1 hx with hx | hx
      · exact h.invoked x hx
      · rw [List.mem_singleton.1 hx]; exact ha
    · intro _
      exact ⟨v, List.mem_append_right _ (List.mem_singleton.2 rfl), hres⟩
  case deleteSend =>
    intro p k r t out err _ hk herr hout h
    refine h.tracedMove hk rfl rfl (fun _ h => h) (fun _ h => h) h.invoked (fun _ h => Or.inl h) ?_
    rintro ⟨x, hx, hr⟩
    subst herr
    exact ⟨x, hx, (forwarded_eq_some _ _ _).2 ⟨hr, hout⟩⟩
  case deleteDrop =>
    intro p k r t out err _ hk _ h
    exact h.tracedMove hk rfl rfl (fun _ h => h) (fun _ h => h) h.invoked (fun _ h => Or.inl h)
      (fun _ => trivial)
  case wgDone =>
    intro p k r _ hk _ h
    exact h.tracedMove hk rfl rfl (fun _ h => h) (fun _ h => h) h.invoked (fun _ h => Or.inl h)
      (fun _ => trivial)
  case feed =>
    intro p k v _ _ hk h
    refine h.tracedMove hk rfl rfl (fun x hx => List.mem_append_left _ hx) (fun _ h => h) ?_
      (fun _ h => Or.inl h) ?_
    · intro x hx
      exact List.mem_append_left _ (h.invoked x hx)
    · intro _
      exact List.mem_append_right _ (List.mem_singleton.2 rfl)
  case take =>
    intro p k out _ hk _ h
    refine h.tracedMove hk rfl rfl (fun _ h => h) (fun _ h => h) h.invoked ?_ (fun _ => trivial)
    intro y hy
    rcases List.mem_append.1 hy with hy | hy
    · exact Or.inl hy
    · rw [List.mem_singleton.1 hy]; exact Or.inr rfl
  case inDone => intro p _ _ h; exact h.tracedSame rfl (fun _ h => Or.inl h) rfl rfl rfl
  case outDone => intro p _ _ h; exact h.tracedSame rfl (fun _ h => Or.inl h) rfl rfl rfl
  case stop => intro p _ h; exact h.tracedSame rfl (fun _ h => Or.inl h) rfl rfl rfl

theorem Traced_init (threads : Int) (f : Func α) :
    Traced ((NewPool threads : Pool α).withFunction f) := by
  constructor <;> simp [NewPool, Pool.withFunction]

theorem reachable_traced (threads : Int) (f : Func α) (tr : List (Label α)) (s : Pool α)
    (h : exec tr ((NewPool threads).withFunction f) = some s) : Traced s :=
  exec_invariant (fun _ => True) Traced (fun p l q _ hp hs => Traced_step p l q hs hp)
    tr _ s (fun _ _ => trivial) (Traced_init threads f) h

theorem ClosedOnce_init (threads : Int) (f : Func α) :
    ClosedOnce ((NewPool threads : Pool α).withFunction f) := by
  constructor <;> simp [NewPool, Pool.withFunction]

theorem reachable_closedOnce (threads : Int) (f : Func α) (tr : List (Label α)) (s : Pool α)
    (h : exec tr ((NewPool threads).withFunction f) = some s) : ClosedOnce s :=
  exec_invariant (fun _ => True) ClosedOnce (fun p l q _ hp hs => ClosedOnce_step p l q hs hp)
    tr _ s (fun _ _ => trivial) (ClosedOnce_init threads f) h

theorem reachable_closedByRun (threads : Int) (f : Func α) (tr : List (Label α)) (s : Pool α)
    (hno : Label.OutDone ∉ tr)
    (h : exec tr ((NewPool threads).withFunction f) = some s) : ClosedByRun s :=
  exec_invariant (fun l => l ≠ .OutDone) ClosedByRun
    (fun p l q hl hp hs => ClosedByRun_step p l q hs hl hp)
    tr _ s (fun l hl heq => hno (heq ▸ hl)) (by simp [ClosedByRun, NewPool, Pool.withFunction]) h

theorem Balanced.balancedMove {p q : Pool α} {k : Nat} {a b : WorkPc α} (h : Balanced p)
    (hk : p.workPcs[k]? = some a) (hF : q.Function = p.Function) (hD : q.Done = p.Done)
    (hw : q.workPcs = p.workPcs.set k b) (D : Multiset (Any α))
    (hT : (q.taken : Multiset (Any α)) + b.pending p.Function =
      (p.taken : Multiset (Any α)) + a.pending p.Function + D)
    (hR : ((q.fed.filterMap (forwarded p.Function) : List (Any α)) : Multiset (Any α)) =
      ((p.fed.filterMap (forwarded p.Function) : List (Any α)) : Multiset (Any α)) + D) :
    Balanced q := by
  intro hd
  rw [hD] at hd
  have h0 := h hd
  have hs := sum_map_set (WorkPc.pending p.Function) p.workPcs k a b hk
  rw [hF, hw, hR, ← h0]
  apply add_right_cancel (b := a.pending p.Function)
  calc (q.taken : Multiset (Any α)) +
        ((p.workPcs.set k b).map (WorkPc.pending p.Function)).sum + a.pending p.Function
      = (q.taken : Multiset (Any α)) +
        (((p.workPcs.set k b).map (WorkPc.pending p.Function)).sum + a.pending p.Function) := by
        rw [add_assoc]
    _ = ((q.taken : Multiset (Any α)) + b.pending p.Function) +
        (p.workPcs.map (WorkPc.pending p.Function)).sum := by
        rw [hs]; abel
    _ = (p.taken : Multiset (Any α)) + (p.workPcs.map (WorkPc.pending p.Function)).sum + D +
        a.pending p.Function := by
        rw [hT]; abel

theorem Balanced.balancedSame {p q : Pool α} (h : Balanced p) (hF : q.Function = p.Function)
    (hD : q.Done = p.Done) (hw : q.workPcs = p.workPcs) (hfed : q.fed = p.fed)
    (htaken : q.taken = p.taken) : Balanced q := by
  intro hd
  rw [hD] at hd
  rw [hF, hw, hfed, htaken]
  exact h hd

theorem Balanced.keep {p q : Pool α} {k : Nat} {a b : WorkPc α} (h : Balanced p)
    (hk : p.workPcs[k]? = some a) (hF : q.Function = p.Function) (hD : q.Done = p.Done)
    (hw : q.workPcs = p.workPcs.set k b) (hfed : q.fed = p.fed) (htaken : q.taken = p.taken)
    (hab : b.pending p.Function = a.pending p.Function) : Balanced q :=
  h.balancedMove hk hF hD hw 0 (by rw [htaken, hab, add_zero]) (by rw [hfed, add_zero])

theorem pending_ran (f : Func α) (t : String) (v out : Any α) (err : GoError)
    (h : ((NewWorker f).Run v).result = .returned (out, err)) :
    (WorkPc.delete t out err).pending f = (WorkPc.run t v).pending f := by
  simp only [WorkPc.pending, forwarded, h]
  split <;> rfl

theorem Balanced_step (p : Pool α) (l : Label α) (q : Pool α) (hs : p.step l = some q) :
    Balanced p → Balanced q := by
  revert hs
  apply step_elim (fun p l q => Balanced p → Balanced q)
  case crash => intro p l _ h; exact h.balancedSame rfl rfl rfl rfl rfl
  case forEnter => intro p i _ _ _ h; exact h.balancedSame rfl rfl rfl rfl rfl
  case forLeave => intro p i _ _ _ h; exact h.balancedSame rfl rfl rfl rfl rfl
  case wgAdd => intro p i _ _ h; exact h.balancedSame rfl rfl rfl rfl rfl
  case sleep => intro p i _ _ h; exact h.balancedSame rfl rfl rfl rfl rfl
  case goWork =>
    intro p i _ _ h hd
    have := h hd
    simpa [WorkPc.pending] using this
  case wgWait => intro p _ _ _ h; exact h.balancedSame rfl rfl rfl rfl rfl
  case runOutDone => intro p _ _ _ h; exact h.balancedSame rfl rfl rfl rfl rfl
  case rangeEnd =>
    intro p k r _ hk _ h
    exact h.keep hk rfl rfl rfl rfl rfl rfl
  case stopped =>
    intro p k r v _ hk hdone h hd
    change p.Done = false at hd
    rw [hdone] at hd
    cases hd
  case checked =>
    intro p k r v _ hk _ h
    exact h.keep hk rfl rfl rfl rfl rfl rfl
  case ticket =>
    intro p k r v _ hk h
    exact h.keep hk rfl rfl rfl rfl rfl rfl
  case ran =>
    intro p k r t v out err _ hk hres h
    exact h.keep hk rfl rfl rfl rfl rfl (pending_ran _ t v out err hres)
  case deleteSend =>
    intro p k r t out err _ hk herr hout h
    exact h.keep hk rfl rfl rfl rfl rfl (by simp [WorkPc.pending, herr, hout])
  case deleteDrop =>
    intro p k r t out err _ hk hcond h
    refine h.keep hk rfl rfl rfl rfl rfl ?_
    simp only [WorkPc.pending]
    rw [if_neg]
    simpa using hcond
  case wgDone =>
    intro p k r _ hk _ h
    exact h.keep hk rfl rfl rfl rfl rfl rfl
  case feed =>
    intro p k v _ _ hk h
    refine h.balancedMove hk rfl rfl rfl (optionMultiset (forwarded p.Function v)) ?_ ?_
    · simp [WorkPc.pending, Pool.setWork]
    · show ((List.filterMap (forwarded p.Function) (p.fed ++ [v]) : List (Any α)) :
        Multiset (Any α)) = _
      rw [List.filterMap_append, ← Multiset.coe_add]
      congr 1
      cases hf : forwarded p.Function v <;> simp [List.filterMap, hf, optionMultiset]
  case take =>
    intro p k out _ hk _ h
    refine h.balancedMove hk rfl rfl rfl 0 ?_ (by simp [Pool.setWork])
    show ((p.taken ++ [out] : List (Any α)) : Multiset (Any α)) + _ = _
    rw [← Multiset.coe_add]
    simp [WorkPc.pending]
  case inDone => intro p _ _ h; exact h.balancedSame rfl rfl rfl rfl rfl
  case outDone => intro p _ _ h; exact h.balancedSame rfl rfl rfl rfl rfl
  case stop =>
    intro p _ h hd
    cases hd

theorem Balanced_init (threads : Int) (f : Func α) :
    Balanced ((NewPool threads : Pool α).withFunction f) := by
  intro _
  simp [NewPool, Pool.withFunction]

theorem reachable_balanced (threads : Int) (f : Func α) (tr : List (Label α)) (s : Pool α)
    (h : exec tr ((NewPool threads).withFunction f) = some s) : Balanced s :=
  exec_invariant (fun _ => True) Balanced (fun p l q _ hp hs => Balanced_step p l q hs hp)
    tr _ s (fun _ _ => trivial) (Balanced_init threads f) h

theorem pending_nil_of_exited (f : Func α) (ws : List (WorkPc α))
    (h : ∀ pc ∈ ws, pc = .exited) : (ws.map (WorkPc.pending f)).sum = 0 := by
  induction ws with
  | nil => simp
  | cons c cs ih =>
    have hc : c = .exited := h c (List.mem_cons_self _ _)
    subst hc
    simp only [List.map_cons, List.sum_cons, WorkPc.pending, zero_add]
    exact ih (fun pc hpc => h pc (List.mem_cons_of_mem _ hpc))

theorem forwarded_some (f : Any α → Outcome α (Any α)) (x : Any α) :
    forwarded (some f) x =
      match f x with
      | .returned (some y) => some (some y)
      | _ => none := by
  simp only [forwarded, run_result, callFunc]
  cases h : f x with
  | returned v => cases v <;> simp
  | panicked e => cases e <;> simp

theorem filterMap_forwarded (f : Any α → Outcome α (Any α)) (xs : List (Any α)) :
    xs.filterMap (forwarded (some f)) = specOutputs f xs := by
  unfold specOutputs
  congr 1
  funext x
  exact forwarded_some f x

theorem serve_item (f : Func α) (threads : Int) (n : Nat) (x : Any α)
    (fed taken invoked : List (Any α)) (slog : List (GoError × Any α)) :
    exec (itemSteps f x) (serving f threads (n + 1) fed taken invoked slog) =
      some (serving f threads (n + 1) (fed ++ [x]) (taken ++ (forwarded f x).toList)
        (invoked ++ [x]) (slog ++ ((NewWorker f).Run x).debug)) := by
  obtain ⟨out, err, hres⟩ := run_returns f x
  cases err <;> cases out <;>
    simp [itemSteps, forwarded, exec, Pool.step, Pool.feed, Pool.work, Pool.take, serving,
      NewPool, Pool.setWork, Pool.NewTick, SMap.Set, SMap.Delete, SMap.New,
      List.replicate_succ, hres]

theorem serve_items (f : Func α) (threads : Int) (n : Nat) :
    ∀ (xs fed taken invoked : List (Any α)) (slog : List (GoError × Any α)),
      exec (itemsSteps f xs) (serving f threads (n + 1) fed taken invoked slog) =
        some (serving f threads (n + 1) (fed ++ xs) (taken ++ xs.filterMap (forwarded f))
          (invoked ++ xs) (slog ++ debugLines f xs)) := by
  intro xs
  induction xs with
  | nil => intro fed taken invoked slog; simp [itemsSteps, exec, debugLines]
  | cons x xs ih =>
    intro fed taken invoked slog
    rw [itemsSteps, exec_append, serve_item]
    simp only [Option.some_bind]
    rw [ih]
    cases hf : forwarded f x <;> simp [debugLines, List.filterMap_cons, hf]

theorem getElem?_append_cons {β : Type} (l : List β) (a : β) (r : List β) :
    (l ++ a :: r)[l.length]? = some a := by
  induction l with
  | nil => simp
  | cons c cs ih => simpa using ih

theorem set_append_cons {β : Type} (l : List β) (a b : β) (r : List β) :
    (l ++ a :: r).set l.length b = l ++ b :: r := by
  induction l with
  | nil => simp
  | cons c cs ih => simp [ih]

theorem close_one (f : Func α) (threads : Int) (j m : Nat)
    (fed taken invoked : List (Any α)) (slog : List (GoError × Any α)) :
    exec [.work j "", .work j ""] (closing f threads j (m + 1) fed taken invoked slog) =
      some (closing f threads (j + 1) m fed taken invoked slog) := by
  have h1 := getElem?_append_cons (List.replicate j (WorkPc.exited : WorkPc α)) .recv
    (List.replicate m .recv)
  have h2 := set_append_cons (List.replicate j (WorkPc.exited : WorkPc α)) .recv .wgDone
    (List.replicate m .recv)
  have h3 := getElem?_append_cons (List.replicate j (WorkPc.exited : WorkPc α)) .wgDone
    (List.replicate m .recv)
  have h4 := set_append_cons (List.replicate j (WorkPc.exited : WorkPc α)) .wgDone .exited
    (List.replicate m .recv)
  simp only [List.length_replicate] at h1 h2 h3 h4
  have h5 : List.replicate j (WorkPc.exited : WorkPc α) ++ .exited :: List.replicate m .recv =
      List.replicate (j + 1) .exited ++ List.replicate m .recv := by
    rw [List.replicate_succ', List.append_assoc]
    rfl
  simp only [exec, Pool.step, closing, NewPool, Pool.work, List.replicate_succ, h1,
    Pool.setWork, h2, h3, h4, h5, Option.some_bind, Bool.false_eq_true, if_false, if_true]
  have h6 : ¬ ((m : Int) < 0) := by omega
  simp [h6]
  omega

theorem close_all (f : Func α) (threads : Int)
    (fed taken invoked : List (Any α)) (slog : List (GoError × Any α)) :
    ∀ (m j : Nat), exec (closeSteps j m) (closing f threads j m fed taken invoked slog) =
      some (closing f threads (j + m) 0 fed taken invoked slog) := by
  intro m
  induction m with
  | zero => intro j; simp [closeSteps, exec]
  | succ m ih =>
    intro j
    rw [closeSteps, exec_append, close_one]
    simp only [Option.some_bind]
    rw [ih (j + 1)]
    congr 2
    omega

theorem serve_inDone (f : Func α) (threads : Int) (n : Nat)
    (fed taken invoked : List (Any α)) (slog : List (GoError × Any α)) :
    exec [.InDone] (serving f threads n fed taken invoked slog) =
      some (closing f threads 0 n fed taken invoked slog) := by
  simp [exec, Pool.step, Pool.InDone, serving, closing, NewPool]

theorem close_return (f : Func α) (threads : Int) (n : Nat)
    (fed taken invoked : List (Any α)) (slog : List (GoError × Any α)) :
    exec [.run, .run] (closing f threads n 0 fed taken invoked slog) =
      some (finished f threads n fed taken invoked slog) := by
  simp [exec, Pool.step, Pool.Run, Pool.OutDone, closing, finished, NewPool]

theorem serve_all (f : Func α) (threads : Int) (h : 1 ≤ threads) (xs : List (Any α)) :
    exec (serveSchedule f threads.toNat xs) ((NewPool threads : Pool α).withFunction f) =
      some (finished f threads threads.toNat xs (xs.filterMap (forwarded f)) xs
        (debugLines f xs)) := by
  obtain ⟨n, hn⟩ : ∃ n, threads.toNat = n + 1 := ⟨threads.toNat - 1, by omega⟩
  rw [serveSchedule, exec_append, spawn_from_new]
  simp only [Option.some_bind]
  rw [hn, exec_append, serve_items]
  simp only [Option.some_bind]
  rw [exec_append, serve_inDone]
  simp only [Option.some_bind]
  rw [exec_append, close_all]
  simp only [Option.some_bind]
  rw [close_return]
  simp

theorem withFunction_none (threads : Int) :
    (NewPool threads : Pool α).withFunction none = NewPool threads := rfl

theorem all_exited_of_waited (p : Pool α) (h : Counted p)
    (hpc : p.runPc = .outDone ∨ p.runPc = .returned) :
    p.wg = 0 ∧ ∀ pc ∈ p.workPcs, pc = .exited := by
  have hl : live p.workPcs = 0 := h.waited (by rcases hpc with h | h <;> rw [h] <;> rfl)
  refine ⟨?_, live_eq_zero _ hl⟩
  have := h.wg
  rcases hpc with h | h <;> simp only [h, RunPc.added, RunPc.spawned] at this <;> omega

theorem not_mem_of_all_exited (ws : List (WorkPc α)) (h : ∀ pc ∈ ws, pc = .exited)
    (k : Nat) (pc : WorkPc α) (hk : ws[k]? = some pc) : pc = .exited :=
  h pc (List.mem_iff_getElem?.2 ⟨k, hk⟩)

theorem work_delete_drop (s : Pool α) (k : Nat) (r t : String) (out : Any α) (err : GoError)
    (hcr : s.crashed = false) (hk : s.workPcs[k]? = some (.delete t out err))
    (hcond : ¬ ((err.isNone && out.isSome) = true)) :
    s.step (.work k r) =
      some (Pool.setWork { s with JobsList := s.JobsList.Delete t } k .recv) := by
  simp only [Pool.step, Pool.work, hk, hcond]
  simp [hcr]

theorem work_delete_send (s : Pool α) (k : Nat) (r t : String) (out : Any α) (err : GoError)
    (hcr : s.crashed = false) (hk : s.workPcs[k]? = some (.delete t out err))
    (hcond : (err.isNone && out.isSome) = true) :
    s.step (.work k r) =
      some (Pool.setWork { s with JobsList := s.JobsList.Delete t } k (.send out)) := by
  simp only [Pool.step, Pool.work, hk, hcond]
  simp [hcr]

theorem earlyClosed_exec :
    exec (earlyCloseSchedule.take 14) doublePool = some earlyClosed := by rfl

theorem earlyCloseFinal_exec : exec earlyCloseSchedule doublePool = some earlyCloseFinal := by rfl

theorem forwarded_none (x : Any α) : forwarded (none : Func α) x = none := by
  simp [forwarded, run_result, callFunc]

theorem left_set (ws : List (WorkPc α)) (j k : Nat) (a b : WorkPc α) (hj : ws[j]? = some a)
    (hab : a.leaving = true → b.leaving = true)
    (h : ∃ pc, ws[k]? = some pc ∧ pc.leaving = true) :
    ∃ pc, (ws.set j b)[k]? = some pc ∧ pc.leaving = true := by
  obtain ⟨pc, hpc, hl⟩ := h
  by_cases hjk : j = k
  · subst hjk
    rw [hj] at hpc
    cases hpc
    have hlt : j < ws.length := by
      obtain ⟨h, _⟩ := List.getElem?_eq_some.1 hj
      exact h
    exact ⟨b, List.getElem?_set_self hlt, hab hl⟩
  · exact ⟨pc, by rw [List.getElem?_set_ne hjk]; exact hpc, hl⟩

theorem left_step (p : Pool α) (l : Label α) (q : Pool α) (hs : p.step l = some q) :
    ∀ k, p.left k → q.left k := by
  revert hs
  apply step_elim (fun p l q => ∀ k, p.left k → q.left k)
  case crash => intro p l _ k h; exact h
  case forEnter => intro p i _ _ _ k h; exact h
  case forLeave => intro p i _ _ _ k h; exact h
  case wgAdd => intro p i _ _ k h; exact h
  case sleep => intro p i _ _ k h; exact h
  case goWork =>
    intro p i _ _ k h
    obtain ⟨pc, hpc, hl⟩ := h
    have hlt : k < p.workPcs.length := by
      obtain ⟨h, _⟩ := List.getElem?_eq_some.1 hpc
      exact h
    exact ⟨pc, by
      show (p.workPcs ++ [WorkPc.recv])[k]? = some pc
      rw [List.getElem?_append_left hlt]; exact hpc, hl⟩
  case wgWait => intro p _ _ _ k h; exact h
  case runOutDone => intro p _ _ _ k h; exact h
  case rangeEnd => intro p j r _ hj _ k h; exact left_set _ j k _ _ hj (fun _ => rfl) h
  case stopped => intro p j r v _ hj _ k h; exact left_set _ j k _ _ hj (fun _ => rfl) h
  case checked =>
    intro p j r v _ hj _ k h
    exact left_set _ j k _ _ hj (fun h => by simp [WorkPc.leaving] at h) h
  case ticket =>
    intro p j r v _ hj k h
    exact left_set _ j k _ _ hj (fun h => by simp [WorkPc.leaving] at h) h
  case ran =>
    intro p j r t v out err _ hj _ k h
    exact left_set _ j k _ _ hj (fun h => by simp [WorkPc.leaving] at h) h
  case deleteSend =>
    intro p j r t out err _ hj _ _ k h
    exact left_set _ j k _ _ hj (fun h => by simp [WorkPc.leaving] at h) h
  case deleteDrop =>
    intro p j r t out err _ hj _ k h
    exact left_set _ j k _ _ hj (fun h => by simp [WorkPc.leaving] at h) h
  case wgDone => intro p j r _ hj _ k h; exact left_set _ j k _ _ hj (fun _ => rfl) h
  case feed =>
    intro p j v _ _ hj k h
    exact left_set _ j k _ _ hj (fun h => by simp [WorkPc.leaving] at h) h
  case take =>
    intro p j out _ hj _ k h
    exact left_set _ j k _ _ hj (fun h => by simp [WorkPc.leaving] at h) h
  case inDone => intro p _ _ k h; exact h
  case outDone => intro p _ _ k h; exact h
  case stop => intro p _ k h; exact h

theorem left_exec (k : Nat) (tr : List (Label α)) (p s : Pool α) (h : exec tr p = some s)
    (hl : p.left k) : s.left k :=
  exec_invariant (fun _ => True) (fun p => p.left k) (fun p l q _ hp hs => left_step p l q hs k hp)
    tr p s (fun _ _ => trivial) hl h

theorem feed_left (p : Pool α) (k : Nat) (x : Any α) (q : Pool α) (hl : p.left k)
    (h : p.step (.feed k x) = some q) : q.fed = p.fed ∧ q.workPcs = p.workPcs := by
  obtain ⟨pc, hpc, hlv⟩ := hl
  simp only [Pool.step, Pool.feed, hpc] at h
  split at h
  · cases h
  · split at h
    · simp only [Option.some.injEq] at h; subst h; exact ⟨rfl, rfl⟩
    · cases pc <;> simp [WorkPc.leaving] at hlv h

theorem work_stopped (s : Pool α) (k : Nat) (r : String) (v : Any α)
    (hcr : s.crashed = false) (hk : s.workPcs[k]? = some (.check v)) (hd : s.Done = true) :
    s.step (.work k r) = some (s.setWork k .wgDone) := by
  simp [Pool.step, Pool.work, hk, hd, hcr]

theorem work_after_check (s : Pool α) (k : Nat) (r : String) (v : Any α)
    (hcr : s.crashed = false) (hk : s.workPcs[k]? = some (.newTick v)) :
    ∃ q, exec [.Stop, .work k r, .work k r, .work k r] s = some q ∧ q.Done = true ∧
      q.crashed = false ∧ q.Out = s.Out ∧ q.taken = s.taken ∧
      q.invoked = s.invoked ++ [v] ∧ q.JobsList = (s.JobsList.Set r v).Delete r ∧
      q.workPcs = s.workPcs.set k
        (match forwarded s.Function v with
         | some y => .send y
         | none => .recv) := by
  obtain ⟨out, err, hres⟩ := run_returns s.Function v
  have hlt : k < s.workPcs.length := by
    obtain ⟨h, _⟩ := List.getElem?_eq_some.1 hk
    exact h
  cases err <;> cases out <;>
    simp [exec, Pool.step, Pool.Stop, Pool.work, hk, hcr, Pool.setWork, hlt, forwarded, hres,
      Pool.NewTick]

/-! ## The properties -/

/-- C1 (amended): `Worker.Run` on `NewWorker(f)` always returns to its caller
(no fault of `f` propagates), and when `f` faults on `x` with a non-nil fault
value `e` it returns the nil output together with the error whose text is
`"param: "` followed by the rendering of `x` and of `e` (a space stands
between the two unless one of them is a string). -/
theorem worker_run_fault (f : Any α → Outcome α (Any α)) (x : Any α) :
    (∃ out err, ((NewWorker (some f)).Run x).result = .returned (out, err)) ∧
    ∀ e : α, f x = .panicked (some e) →
      ((NewWorker (some f)).Run x).result =
        .returned (none, errorsNew ("param: " ++ (Operand.any x).printArg ++
          (if (Operand.any x : Operand α).isString || GoValue.kindString e then "" else " ") ++
          GoValue.format e)) := by
  refine ⟨run_returns _ _, ?_⟩
  intro e h
  rw [run_result]
  simp [callFunc, h, faultText, errorsNew]

/-- Witness for C1: the transformation that faults on negatives, at `-1`. -/
theorem worker_run_fault_witness :
    succNonneg (some (.int (-1))) = .panicked (some (.str "negative")) ∧
    ((NewWorker (some succNonneg)).Run (some (.int (-1)))).result =
      .returned (none, some "param: -1negative") :=
  ⟨rfl, (worker_run_fault succNonneg (some (.int (-1)))).2 (.str "negative") rfl⟩

/-- Counterexample to C1 as stated: a transformation that faults with the nil
fault value (`panic(nil)`) makes `Worker.Run` return the nil output and the nil
error. -/
theorem worker_run_fault_nil_counterexample :
    panicNil (some (.int 1)) = .panicked none ∧
    ((NewWorker (some panicNil)).Run (some (.int 1))).result = .returned (none, none) ∧
    ¬ ∃ msg, ((NewWorker (some panicNil)).Run (some (.int 1))).result =
        .returned (none, some msg) := by
  refine ⟨rfl, rfl, ?_⟩
  rintro ⟨msg, h⟩
  have h2 : ((NewWorker (some panicNil)).Run (some (.int 1))).result = .returned (none, none) := rfl
  rw [h2] at h
  cases h

/-- C2 (amended): when `f` returns `v` on `x`, `Worker.Run` on `NewWorker(f)`
returns exactly `(v, nil)`; and `Worker.Run` returns a non-nil error if and
only if `f` faults on `x` with a non-nil fault value. -/
theorem worker_run_normal (f : Any α → Outcome α (Any α)) (x : Any α) :
    (∀ v, f x = .returned v → ((NewWorker (some f)).Run x).result = .returned (v, none)) ∧
    ((∃ out msg, ((NewWorker (some f)).Run x).result = .returned (out, some msg)) ↔
      ∃ e : α, f x = .panicked (some e)) := by
  constructor
  · intro v h
    rw [run_result]
    simp [callFunc, h]
  · rw [run_result]
    simp only [callFunc]
    cases h : f x with
    | returned v => simp
    | panicked e =>
      cases e with
      | none => simp
      | some e => simp

/-- Witness for C2: `double` at `3`. -/
theorem worker_run_normal_witness :
    double (some (.int 3)) = .returned (some (.int 6)) ∧
    ((NewWorker (some double)).Run (some (.int 3))).result = .returned (some (.int 6), none) :=
  ⟨rfl, (worker_run_normal double (some (.int 3))).1 _ rfl⟩

/-- Counterexample to C2 as stated: `panic(nil)` is a fault of `f` on `x`, yet
`Worker.Run` returns no error. -/
theorem worker_run_error_iff_counterexample :
    ¬ ((∃ out msg, ((NewWorker (some panicNil)).Run (some (.int 1))).result =
          .returned (out, some msg)) ↔
        ∃ e, panicNil (some (.int 1)) = .panicked e) := by
  intro h
  obtain ⟨out, msg, h1⟩ := h.2 ⟨none, rfl⟩
  have h2 : ((NewWorker (some panicNil)).Run (some (.int 1))).result = .returned (none, none) := rfl
  rw [h2] at h1
  cases h1

/-- C5: in every state the pool reaches from `NewPool` (whatever the
transformation, the inputs, the interleaving and the calls of `InDone`,
`OutDone` and `Stop`), once `Run()` has returned the registry `JobsList` is
empty; and a work goroutine whose `Worker.Run` has returned removes its ticket
in its next step, whatever the output and the error are. -/
theorem registry_empty_after_Run (threads : Int) (f : Func α) (tr : List (Label α))
    (s : Pool α) (h : exec tr ((NewPool threads).withFunction f) = some s) :
    (s.runPc = .returned → s.JobsList.entries = [] ∧ s.JobsList.size = 0) ∧
    (∀ (k : Nat) (r t : String) (out : Any α) (err : GoError), s.crashed = false →
      s.workPcs[k]? = some (.delete t out err) →
      ∃ q, s.step (.work k r) = some q ∧ q.JobsList = s.JobsList.Delete t ∧
        t ∉ q.JobsList.keys) := by
  have hc := reachable_counted threads f tr s h
  have hr := reachable_registered threads f tr s h
  constructor
  · intro hret
    have hl : live s.workPcs = 0 := hc.waited (by rw [hret]; rfl)
    have ht := tickets_nil_of_exited s.workPcs (live_eq_zero s.workPcs hl)
    have hk : s.JobsList.keys = [] := by
      apply List.eq_nil_iff_forall_not_mem.2
      intro key hkey
      have := hr.held key hkey
      rw [ht] at this
      cases this
    have he : s.JobsList.entries = [] := by
      simpa [SMap.keys] using hk
    exact ⟨he, by simp [SMap.size, he]⟩
  · intro k r t out err hcr hk
    have hkeys : t ∉ (s.JobsList.Delete t).keys := by
      rw [keys_Delete]
      simp
    by_cases hcond : (err.isNone && out.isSome) = true
    · exact ⟨_, work_delete_send s k r t out err hcr hk hcond, rfl, hkeys⟩
    · exact ⟨_, work_delete_drop s k r t out err hcr hk hcond, rfl, hkeys⟩

/-- Witness for C5: at the end of `doubleSchedule` the caller of `Run` has
returned and the registry is empty. -/
theorem registry_empty_after_Run_witness :
    exec doubleSchedule ((NewPool 3).withFunction (some double)) = some doubleFinal ∧
    doubleFinal.runPc = .returned ∧ doubleFinal.JobsList.entries = [] ∧
    doubleFinal.JobsList.size = 0 :=
  ⟨doubleFinal_exec, rfl,
    (registry_empty_after_Run 3 (some double) doubleSchedule doubleFinal doubleFinal_exec).1 rfl⟩

/-- C6 (amended): in every state the pool reaches from `NewPool(threads)`, the
number of entries of the registry is at most the number of work goroutines
started, which is at most `max(threads, 0)`. -/
theorem registry_size_le_threads (threads : Int) (f : Func α) (tr : List (Label α))
    (s : Pool α) (h : exec tr ((NewPool threads).withFunction f) = some s) :
    s.JobsList.size ≤ s.workPcs.length ∧ (s.workPcs.length : Int) ≤ max threads 0 ∧
    (s.JobsList.size : Int) ≤ max threads 0 := by
  have hc := reachable_counted threads f tr s h
  have hr := reachable_registered threads f tr s h
  have h1 := size_le_workers s hr
  have h2 := workers_le_threads s hc
  rw [(reachable_threads threads f tr s h).1] at h2
  exact ⟨h1, h2, by omega⟩

/-- Witness for C6: in the middle of `doubleSchedule` the registry holds three
entries, one per work goroutine. -/
theorem registry_size_le_threads_witness :
    exec (doubleSchedule.take 34) ((NewPool 3).withFunction (some double)) = some doubleMiddle ∧
    doubleMiddle.JobsList.size = 3 ∧
    (doubleMiddle.JobsList.size : Int) ≤ max 3 0 :=
  ⟨doubleMiddle_exec, rfl,
    (registry_size_le_threads 3 (some double) (doubleSchedule.take 34) doubleMiddle
      doubleMiddle_exec).2.2⟩

/-- Counterexample to C6 as stated: for `threads = -1` the registry of the new
pool has 0 entries, which is not at most `-1`. -/
theorem registry_size_negative_counterexample :
    exec [] ((NewPool (-1) : Pool Val).withFunction (some double)) =
      some ((NewPool (-1)).withFunction (some double)) ∧
    ¬ ((((NewPool (-1) : Pool Val).withFunction (some double)).JobsList.size : Int) ≤
        ((NewPool (-1) : Pool Val).withFunction (some double)).threads) := by
  refine ⟨rfl, ?_⟩
  simp [NewPool, Pool.withFunction, SMap.size, SMap.New]

/-- C9 (amended): for every value of `threads`, the caller of `Run`, running
alone, reaches `p.wg.Wait()` having started exactly `max(threads, 0)` work
goroutines and called `wg.Add(1)` as many times; and in every interleaving,
once the caller is at or past `p.wg.Wait()` the number of work goroutines
started and the number of `wg.Add(1)` calls are both `max(threads, 0)`, which
is `threads` when `threads` is not negative. -/
theorem run_spawns_threads (threads : Int) (f : Func α) :
    (∃ s, exec (spawnSteps threads.toNat) ((NewPool threads).withFunction f) = some s ∧
      s.runPc = .wgWait ∧ s.workPcs.length = threads.toNat ∧ s.wgAdds = threads.toNat ∧
      s.wg = threads.toNat) ∧
    (∀ (tr : List (Label α)) (s : Pool α),
      exec tr ((NewPool threads).withFunction f) = some s →
      s.runPc = .wgWait ∨ s.runPc = .outDone ∨ s.runPc = .returned →
      (s.workPcs.length : Int) = max threads 0 ∧ (s.wgAdds : Int) = max threads 0 ∧
      (0 ≤ threads → (s.workPcs.length : Int) = threads ∧ (s.wgAdds : Int) = threads)) := by
  constructor
  · exact ⟨_, spawn_from_new f threads, rfl, by simp [serving], rfl, rfl⟩
  · intro tr s h hpc
    have hc := reachable_counted threads f tr s h
    have ht := (reachable_threads threads f tr s h).1
    obtain ⟨_, h2, h3, _, _⟩ := hc
    rw [ht] at h2 h3
    rcases hpc with hpc | hpc | hpc <;>
      simp only [hpc, RunPc.spawned, RunPc.added] at h2 h3 <;>
      exact ⟨h2, h3, fun h0 => ⟨by omega, by omega⟩⟩

/-- Witness for C9: at the end of `doubleSchedule`, three work goroutines have
been started and `wg.Add(1)` has been called three times. -/
theorem run_spawns_threads_witness :
    exec doubleSchedule ((NewPool 3).withFunction (some double)) = some doubleFinal ∧
    (doubleFinal.workPcs.length : Int) = 3 ∧ (doubleFinal.wgAdds : Int) = 3 :=
  ⟨doubleFinal_exec,
    ((run_spawns_threads 3 (some double)).2 doubleSchedule doubleFinal doubleFinal_exec
      (Or.inr (Or.inr rfl))).2.2 (by decide)⟩

/-- Counterexample to C9 as stated: with `threads = -1` the caller of `Run`
reaches `p.wg.Wait()` in one step, having started no work goroutine, and 0 is
not `threads`. -/
theorem run_spawns_negative_counterexample :
    ∃ s, exec [.run] ((NewPool (-1) : Pool Val).withFunction (some double)) = some s ∧
      s.runPc = .wgWait ∧ s.workPcs.length = 0 ∧ s.wgAdds = 0 ∧
      (s.workPcs.length : Int) ≠ s.threads :=
  ⟨_, rfl, rfl, rfl, rfl, by decide⟩

/-- C3: for every transformation `f`, every worker count `threads >= 1` and
every finite list of inputs `xs`, there is a run in which the inputs `xs` are
received, the stop flag is never set, the input stream is closed and `Run`
returns; and in every run (every interleaving, every distribution of the
inputs among the work goroutines) in which `Run` has returned, the stop flag
was never set and the inputs received are `xs` in some order, the multiset of
values received from the output stream is the multiset of `f(x)` over the
inputs `x` on which `f` does not fault and `f(x)` is not nil. -/
theorem outputs_are_results (f : Any α → Outcome α (Any α)) (threads : Int)
    (hN : 1 ≤ threads) (xs : List (Any α)) :
    (∃ tr s, exec tr ((NewPool threads).withFunction (some f)) = some s ∧
      s.runPc = .returned ∧ s.Done = false ∧ s.In.closed = true ∧ s.Out.closed = true ∧
      s.crashed = false ∧ s.fed = xs ∧ s.taken = specOutputs f xs) ∧
    (∀ (tr : List (Label α)) (s : Pool α),
      exec tr ((NewPool threads).withFunction (some f)) = some s →
      s.runPc = .returned → s.Done = false → s.fed.Perm xs →
      (s.taken : Multiset (Any α)) = (specOutputs f xs : Multiset (Any α))) := by
  constructor
  · refine ⟨_, _, serve_all (some f) threads hN xs, rfl, rfl, rfl, rfl, rfl, rfl, ?_⟩
    exact filterMap_forwarded f xs
  · intro tr s h hret hdone hperm
    have hc := reachable_counted threads (some f) tr s h
    have hb := reachable_balanced threads (some f) tr s h hdone
    have hF := (reachable_threads threads (some f) tr s h).2
    have hex := (all_exited_of_waited s hc (Or.inr hret)).2
    rw [pending_nil_of_exited _ _ hex, add_zero, hF, filterMap_forwarded] at hb
    rw [hb]
    exact Quotient.sound (hperm.filterMap _)

/-- Witness for C3: `threads = 3`, `double`, inputs 1 to 5 served by three
work goroutines in an interleaved schedule give the outputs 2, 4, 6, 8, 10 in
some order; and the transformation that faults on negatives, on the inputs
-1, 2, -3, 4, gives the outputs 3 and 5. -/
theorem outputs_are_results_witness :
    (exec doubleSchedule ((NewPool 3).withFunction (some double)) = some doubleFinal ∧
      doubleFinal.fed = [some (.int 1), some (.int 2), some (.int 3), some (.int 4),
        some (.int 5)] ∧
      specOutputs double [some (.int 1), some (.int 2), some (.int 3), some (.int 4),
        some (.int 5)] = [some (.int 2), some (.int 4), some (.int 6), some (.int 8),
        some (.int 10)] ∧
      (doubleFinal.taken : Multiset (Any Val)) =
        (specOutputs double [some (.int 1), some (.int 2), some (.int 3), some (.int 4),
          some (.int 5)] : Multiset (Any Val))) ∧
    (specOutputs succNonneg [some (.int (-1)), some (.int 2), some (.int (-3)), some (.int 4)] =
        [some (.int 3), some (.int 5)] ∧
      ∃ tr s, exec tr ((NewPool 3).withFunction (some succNonneg)) = some s ∧
        s.runPc = .returned ∧ s.Done = false ∧ s.In.closed = true ∧ s.Out.closed = true ∧
        s.crashed = false ∧
        s.fed = [some (.int (-1)), some (.int 2), some (.int (-3)), some (.int 4)] ∧
        s.taken = specOutputs succNonneg
          [some (.int (-1)), some (.int 2), some (.int (-3)), some (.int 4)]) :=
  ⟨⟨doubleFinal_exec, rfl, rfl,
      (outputs_are_results double 3 (by decide) _).2 doubleSchedule doubleFinal
        doubleFinal_exec rfl rfl (List.Perm.refl _)⟩,
    rfl, (outputs_are_results succNonneg 3 (by decide) _).1⟩

/-- C4: in every state the pool reaches, every value received from the output
stream, and every value a work goroutine is sending on it, is not nil and is
the result of a `Worker.Run` invocation on a received input that returned
without error; and a work goroutine whose invocation returned an error or a
nil result goes back to receiving without sending anything. -/
theorem out_only_results (threads : Int) (f : Func α) (tr : List (Label α)) (s : Pool α)
    (h : exec tr ((NewPool threads).withFunction f) = some s) :
    (∀ y ∈ s.taken, y.isSome = true ∧ ∃ x, x ∈ s.fed ∧ x ∈ s.invoked ∧
      ((NewWorker f).Run x).result = .returned (y, none)) ∧
    (∀ (k : Nat) (y : Any α), s.workPcs[k]? = some (.send y) →
      y.isSome = true ∧ ∃ x, x ∈ s.fed ∧ x ∈ s.invoked ∧
        ((NewWorker f).Run x).result = .returned (y, none)) ∧
    (∀ (k : Nat) (r t : String) (out : Any α) (err : GoError), s.crashed = false →
      s.workPcs[k]? = some (.delete t out err) → err ≠ none ∨ out = none →
      ∃ q, s.step (.work k r) = some q ∧ q.workPcs = s.workPcs.set k .recv ∧
        q.taken = s.taken) := by
  have ht := reachable_traced threads f tr s h
  have hF := (reachable_threads threads f tr s h).2
  refine ⟨?_, ?_, ?_⟩
  · intro y hy
    obtain ⟨x, hx, hfw⟩ := ht.taken y hy
    rw [hF] at hfw
    obtain ⟨hr, hs⟩ := (forwarded_eq_some f x y).1 hfw
    exact ⟨hs, x, ht.invoked x hx, hx, hr⟩
  · intro k y hk
    obtain ⟨x, hx, hfw⟩ := ht.pcs _ (List.mem_iff_getElem?.2 ⟨k, hk⟩)
    rw [hF] at hfw
    obtain ⟨hr, hs⟩ := (forwarded_eq_some f x y).1 hfw
    exact ⟨hs, x, ht.invoked x hx, hx, hr⟩
  · intro k r t out err hcr hk hbad
    have hcond : ¬ ((err.isNone && out.isSome) = true) := by
      rcases hbad with hb | hb
      · cases err with
        | none => exact absurd rfl hb
        | some e => simp
      · subst hb
        simp
    exact ⟨_, work_delete_drop s k r t out err hcr hk hcond, rfl, rfl⟩

/-- Witness for C4: at the end of `doubleSchedule`, the value 2 has been
received from the output stream and is the result of an invocation. -/
theorem out_only_results_witness :
    exec doubleSchedule ((NewPool 3).withFunction (some double)) = some doubleFinal ∧
    some (Val.int 2) ∈ doubleFinal.taken ∧
    ∃ x, x ∈ doubleFinal.fed ∧ x ∈ doubleFinal.invoked ∧
      ((NewWorker (some double)).Run x).result = .returned (some (.int 2), none) :=
  ⟨doubleFinal_exec, by decide,
    ((out_only_results 3 (some double) doubleSchedule doubleFinal doubleFinal_exec).1
      (some (.int 2)) (by decide)).2⟩

/-- C8 (amended): in every state the pool reaches, the output stream has been
closed at most once (a close of the closed stream faults), it has been closed
exactly once when `Run` has returned, and `Run` is at or past its
`p.OutDone()` only when the completion barrier is at zero and every started
work goroutine has finished; and in every run in which `OutDone` is called by
`Run` only, the output stream is closed only when `Run` has returned, hence
after every started work goroutine has finished, and no work goroutine is
sending on the closed stream. -/
theorem out_closed_by_run (threads : Int) (f : Func α) :
    (∀ (tr : List (Label α)) (s : Pool α),
      exec tr ((NewPool threads).withFunction f) = some s →
      s.outCloses ≤ 1 ∧ (s.Out.closed = true ↔ s.outCloses = 1) ∧
      (s.runPc = .returned → s.outCloses = 1) ∧
      (s.runPc = .outDone ∨ s.runPc = .returned →
        s.wg = 0 ∧ ∀ pc ∈ s.workPcs, pc = .exited)) ∧
    (∀ (tr : List (Label α)) (s : Pool α), Label.OutDone ∉ tr →
      exec tr ((NewPool threads).withFunction f) = some s →
      (s.Out.closed = true →
        s.runPc = .returned ∧ s.outCloses = 1 ∧ ∀ pc ∈ s.workPcs, pc = .exited) ∧
      (∀ (k : Nat) (y : Any α), s.workPcs[k]? = some (.send y) → s.Out.closed = false)) := by
  constructor
  · intro tr s h
    have hc := reachable_counted threads f tr s h
    obtain ⟨h1, h2⟩ := reachable_closedOnce threads f tr s h
    refine ⟨?_, ?_, ?_, all_exited_of_waited s hc⟩
    · rw [h1]; split <;> omega
    · rw [h1]; cases s.Out.closed <;> simp
    · intro hret; rw [h1, h2 hret]; rfl
  · intro tr s hno h
    have hc := reachable_counted threads f tr s h
    obtain ⟨h1, h2⟩ := reachable_closedOnce threads f tr s h
    have hr := reachable_closedByRun threads f tr s hno h
    have hall : s.Out.closed = true →
        s.runPc = .returned ∧ s.outCloses = 1 ∧ ∀ pc ∈ s.workPcs, pc = .exited := by
      intro hcl
      have hret := hr hcl
      exact ⟨hret, by rw [h1, hcl]; rfl, (all_exited_of_waited s hc (Or.inr hret)).2⟩
    refine ⟨hall, ?_⟩
    intro k y hk
    cases hcl : s.Out.closed with
    | false => rfl
    | true =>
      have := not_mem_of_all_exited s.workPcs (hall hcl).2.2 k _ hk
      cases this

/-- Witness for C8: `doubleSchedule` contains no call of `OutDone`; at its end
the output stream is closed, `Run` has returned and it has been closed once. -/
theorem out_closed_by_run_witness :
    Label.OutDone ∉ doubleSchedule ∧
    exec doubleSchedule ((NewPool 3).withFunction (some double)) = some doubleFinal ∧
    doubleFinal.Out.closed = true ∧
    doubleFinal.runPc = .returned ∧ doubleFinal.outCloses = 1 ∧
    ∀ pc ∈ doubleFinal.workPcs, pc = .exited :=
  ⟨by decide, doubleFinal_exec, rfl,
    ((out_closed_by_run 3 (some double)).2 doubleSchedule doubleFinal (by decide)
      doubleFinal_exec).1 rfl⟩

/-- Counterexample to C8 as stated: `OutDone` is a method of the pool; called
while the work goroutines are running it closes the output stream before any
of them has finished and before `Run` has passed its barrier, and the work
goroutine that then sends its result faults on the closed stream. -/
theorem out_closed_early_counterexample :
    exec (earlyCloseSchedule.take 14) ((NewPool 3).withFunction (some double)) =
      some earlyClosed ∧
    earlyClosed.Out.closed = true ∧ earlyClosed.runPc = .wgWait ∧
    earlyClosed.workPcs = [.recv, .recv, .recv] ∧ earlyClosed.crashed = false ∧
    exec earlyCloseSchedule ((NewPool 3).withFunction (some double)) = some earlyCloseFinal ∧
    earlyCloseFinal.workPcs[0]? = some (.send (some (.int 2))) ∧
    earlyCloseFinal.Out.closed = true ∧ earlyCloseFinal.crashed = true :=
  ⟨earlyClosed_exec, rfl, rfl, rfl, rfl, earlyCloseFinal_exec, rfl, rfl, rfl⟩

/-- C10: for a pool fresh from `NewPool` whose `Function` is nil, `Worker.Run`
returns the nil output and a non-nil error for every input (the call of the
nil function faults and is recovered); in every state the pool reaches nothing
has been received from the output stream, no work goroutine is sending, and
the registry is empty once `Run` has returned; and for `threads >= 1` and
every finite list of inputs there is a run in which every input is received
and invoked on, the input stream is closed, every work goroutine finishes and
`Run` returns, with no output and an empty registry. -/
theorem nil_function_pool (threads : Int) :
    (∀ x : Any α, ((NewWorker (none : Func α)).Run x).result =
      .returned (none, some ("param: " ++ (Operand.any x).printArg ++
        (if (Operand.any x : Operand α).isString ||
            GoValue.kindString (GoValue.nilFuncCall : α) then "" else " ") ++
        GoValue.format (GoValue.nilFuncCall : α)))) ∧
    (∀ (tr : List (Label α)) (s : Pool α), exec tr (NewPool threads : Pool α) = some s →
      s.taken = [] ∧ (∀ (k : Nat) (y : Any α), s.workPcs[k]? ≠ some (.send y)) ∧
      (s.runPc = .returned → s.JobsList.entries = [])) ∧
    (1 ≤ threads → ∀ xs : List (Any α), ∃ tr s,
      exec tr (NewPool threads : Pool α) = some s ∧ s.fed = xs ∧ s.invoked = xs ∧
      s.runPc = .returned ∧ (∀ pc ∈ s.workPcs, pc = .exited) ∧ s.In.closed = true ∧
      s.crashed = false ∧ s.taken = [] ∧ s.JobsList.entries = []) := by
  refine ⟨?_, ?_, ?_⟩
  · intro x
    rw [run_result]
    simp [callFunc, faultText]
  · intro tr s h
    rw [← withFunction_none] at h
    have ht := reachable_traced threads none tr s h
    have hF := (reachable_threads threads none tr s h).2
    have hc := reachable_counted threads none tr s h
    have hr := reachable_registered threads none tr s h
    refine ⟨?_, ?_, ?_⟩
    · apply List.eq_nil_iff_forall_not_mem.2
      intro y hy
      obtain ⟨x, _, hfw⟩ := ht.taken y hy
      rw [hF, forwarded_none] at hfw
      cases hfw
    · intro k y hk
      obtain ⟨x, _, hfw⟩ := ht.pcs _ (List.mem_iff_getElem?.2 ⟨k, hk⟩)
      rw [hF, forwarded_none] at hfw
      cases hfw
    · intro hret
      have hex := (all_exited_of_waited s hc (Or.inr hret)).2
      have htk := tickets_nil_of_exited s.workPcs hex
      have hk : s.JobsList.keys = [] := by
        apply List.eq_nil_iff_forall_not_mem.2
        intro key hkey
        have := hr.held key hkey
        rw [htk] at this
        cases this
      simpa [SMap.keys] using hk
  · intro hN xs
    refine ⟨_, _, serve_all none threads hN xs, rfl, rfl, rfl, ?_, rfl, rfl, ?_, rfl⟩
    · intro pc hpc
      exact List.eq_of_mem_replicate hpc
    · show xs.filterMap (forwarded none) = []
      apply List.filterMap_eq_nil_iff.2
      intro x _
      exact forwarded_none x

/-- Witness for C10: a pool of one work goroutine and nil `Function`, given
the inputs 7 and 8. -/
theorem nil_function_pool_witness :
    (1 : Int) ≤ 1 ∧
    ∃ tr s, exec tr (NewPool 1 : Pool Val) = some s ∧
      s.fed = [some (.int 7), some (.int 8)] ∧ s.invoked = [some (.int 7), some (.int 8)] ∧
      s.runPc = .returned ∧ (∀ pc ∈ s.workPcs, pc = .exited) ∧ s.In.closed = true ∧
      s.crashed = false ∧ s.taken = [] ∧ s.JobsList.entries = [] :=
  ⟨by decide, (nil_function_pool 1).2.2 (by decide) [some (.int 7), some (.int 8)]⟩

/-- C7: a work goroutine that tests the stop flag for a received item and
finds it set leaves its loop at once: the step draws no ticket, leaves the
registry, the invocations, the log, the outputs and the inputs received as
they are (the item is dropped), and in every later state the goroutine is in
its deferred `p.wg.Done()` or finished and receives nothing more; whereas a
work goroutine that has passed the test works its item off even if `Stop()`
is called right after: the ticket is entered, the transformation invoked, the
ticket removed, and the result, if one is forwarded, is sent to the consumer. -/
theorem stop_discards_item (s : Pool α) (k : Nat) (v : Any α) (r : String)
    (hcr : s.crashed = false) :
    (s.workPcs[k]? = some (.check v) → s.Done = true →
      ∃ q, s.step (.work k r) = some q ∧ q.workPcs = s.workPcs.set k .wgDone ∧
        q.JobsList = s.JobsList ∧ q.invoked = s.invoked ∧ q.slog = s.slog ∧
        q.taken = s.taken ∧ q.fed = s.fed ∧ q.In = s.In ∧ q.Out = s.Out ∧
        ∀ (tr : List (Label α)) (q2 : Pool α), exec tr q = some q2 →
          q2.left k ∧
          ∀ (x : Any α) (q3 : Pool α), q2.step (.feed k x) = some q3 →
            q3.fed = q2.fed ∧ q3.workPcs = q2.workPcs) ∧
    (s.workPcs[k]? = some (.newTick v) →
      ∃ q, exec [.Stop, .work k r, .work k r, .work k r] s = some q ∧ q.Done = true ∧
        q.invoked = s.invoked ++ [v] ∧ q.JobsList = (s.JobsList.Set r v).Delete r ∧
        q.workPcs = s.workPcs.set k
          (match forwarded s.Function v with
           | some y => .send y
           | none => .recv) ∧
        ∀ y, forwarded s.Function v = some y → s.Out.closed = false →
          ∃ q2, q.step (.take k) = some q2 ∧ q2.taken = s.taken ++ [y] ∧
            q2.workPcs = s.workPcs.set k .recv) := by
  constructor
  · intro hk hd
    have hlt : k < s.workPcs.length := by
      obtain ⟨h, _⟩ := List.getElem?_eq_some.1 hk
      exact h
    refine ⟨_, work_stopped s k r v hcr hk hd, rfl, rfl, rfl, rfl, rfl, rfl, rfl, rfl, ?_⟩
    intro tr q2 hq2
    have hl : (s.setWork k .wgDone).left k :=
      ⟨.wgDone, List.getElem?_set_self hlt, rfl⟩
    have hl2 := left_exec k tr _ q2 hq2 hl
    exact ⟨hl2, fun x q3 h3 => feed_left q2 k x q3 hl2 h3⟩
  · intro hk
    have hlt : k < s.workPcs.length := by
      obtain ⟨h, _⟩ := List.getElem?_eq_some.1 hk
      exact h
    obtain ⟨q, hq, hd, hqc, hout, htk, hinv, hjobs, hws⟩ := work_after_check s k r v hcr hk
    refine ⟨q, hq, hd, hinv, hjobs, hws, ?_⟩
    intro y hy hopen
    rw [hy] at hws
    have hqk : q.workPcs[k]? = some (.send y) := by
      rw [hws]; exact List.getElem?_set_self hlt
    refine ⟨{ q.setWork k .recv with taken := q.taken ++ [y] }, ?_, ?_, ?_⟩
    · simp [Pool.step, Pool.take, hqk, hqc, hout, hopen]
    · show q.taken ++ [y] = _
      rw [htk]
    · show q.workPcs.set k .recv = _
      rw [hws, List.set_set]

/-- Witness for C7: in the `double` pool, work goroutine 0 has received the
input 1 and `Stop` has been called: its next step leaves the loop and drops
the item; had it passed the test before `Stop`, it enters a ticket, invokes
`double` and is left sending the result 2. -/
theorem stop_discards_item_witness :
    (exec stopSchedule doublePool = some stoppedPool ∧
      stoppedPool.workPcs[0]? = some (.check (some (.int 1))) ∧ stoppedPool.Done = true ∧
      ∃ q, stoppedPool.step (.work 0 "") = some q ∧
        q.workPcs = stoppedPool.workPcs.set 0 .wgDone ∧ q.JobsList = stoppedPool.JobsList ∧
        q.invoked = stoppedPool.invoked ∧ q.slog = stoppedPool.slog ∧ q.taken = stoppedPool.taken ∧
        q.fed = stoppedPool.fed ∧ q.In = stoppedPool.In ∧ q.Out = stoppedPool.Out ∧
        ∀ (tr : List (Label Val)) (q2 : Pool Val), exec tr q = some q2 →
          q2.left 0 ∧
          ∀ (x : Any Val) (q3 : Pool Val), q2.step (.feed 0 x) = some q3 →
            q3.fed = q2.fed ∧ q3.workPcs = q2.workPcs) ∧
    (exec passedSchedule doublePool = some passedPool ∧
      passedPool.workPcs[0]? = some (.newTick (some (.int 1))) ∧
      ∃ q, exec [.Stop, .work 0 "a", .work 0 "a", .work 0 "a"] passedPool = some q ∧
        q.Done = true ∧ q.invoked = passedPool.invoked ++ [some (.int 1)] ∧
        q.JobsList = (passedPool.JobsList.Set "a" (some (.int 1))).Delete "a" ∧
        q.workPcs = passedPool.workPcs.set 0
          (match forwarded passedPool.Function (some (.int 1)) with
           | some y => .send y
           | none => .recv) ∧
        ∀ y, forwarded passedPool.Function (some (.int 1)) = some y → passedPool.Out.closed = false →
          ∃ q2, q.step (.take 0) = some q2 ∧ q2.taken = passedPool.taken ++ [y] ∧
            q2.workPcs = passedPool.workPcs.set 0 .recv) :=
  ⟨⟨rfl, rfl, rfl,
      (stop_discards_item stoppedPool 0 (some (.int 1)) "" rfl).1 rfl rfl⟩,
    rfl, rfl, (stop_discards_item passedPool 0 (some (.int 1)) "a" rfl).2 rfl⟩

end Kscan
